import Mathlib

/-!
Verification development for the claude-code-search-history core:
the transcript scanner/parser/classifier (`src/main/services/scanner.ts`)
and the search indexer (`SearchIndexer`).

Strings are modelled as `List Char`; JavaScript regex replacement,
truthiness, and string comparison are embedded explicitly.
-/

namespace ClaudeSearch

/-! ### JavaScript character classes

`isJsWS` is the ECMAScript `\s` class (WhiteSpace ∪ LineTerminator),
used by `String.prototype.trim` and by the `\S` in `[^\S\n]`.
`isHWS` is the horizontal-whitespace class `[^\S\n]` of `cleanContent`. -/

def isJsWS (c : Char) : Bool :=
  c = '\t' || c = '\n' || c = '\x0b' || c = '\x0c' || c = '\r' || c = ' ' ||
  c = '\u00a0' || c = '\u1680' || (0x2000 ≤ c.toNat && c.toNat ≤ 0x200a) ||
  c = '\u2028' || c = '\u2029' || c = '\u202f' || c = '\u205f' || c = '\u3000' ||
  c = '\ufeff'

def isHWS (c : Char) : Bool := isJsWS c && !(c = '\n')

/-! ### `cleanContent` pipeline (scanner.ts 492-500)

`text.replace(SYSTEM_TAG_RE, '').replace(/[^\S\n]+/g, ' ').replace(/\n{3,}/g, '\n\n').trim()` -/

/-- The enumerated tag names of `SYSTEM_TAG_RE` (scanner.ts 465-490), in
source order. -/
def systemTags : List (List Char) :=
  [ "system-reminder", "command-name", "command-message", "command-args",
    "ide_selection", "ide_opened_file", "local-command-stdout",
    "local-command-caveat", "retrieval_status", "task_id", "task_type",
    "task-id", "task-notification", "fast_mode_info", "persisted-output",
    "tool_use_error", "user-prompt-submit-hook", "thinking", "ask_user"
  ].map String.toList

def openTok (t : List Char) : List Char := '<' :: t ++ ['>']

def closeTok (t : List Char) : List Char := '<' :: '/' :: t ++ ['>']

/-- Try to match an opening tag `<t>` at the head of `l`; on success return
the tag name and the remainder after the opening tag. Mirrors the regex
alternation `<(system-reminder|...)>`. -/
def matchOpen (l : List Char) : Option (List Char × List Char) :=
  systemTags.findSome? fun t =>
    if (openTok t).isPrefixOf l then some (t, l.drop (openTok t).length) else none

/-- Scan for the earliest occurrence of the closing tag `</t>` (the
non-greedy `[\s\S]*?<\/\1>`); on success return the remainder after it. -/
def findClose (t : List Char) : List Char → Option (List Char)
  | [] => none
  | c :: rest =>
    if (closeTok t).isPrefixOf (c :: rest) then
      some ((c :: rest).drop (closeTok t).length)
    else findClose t rest

/-- One global-regex replacement pass of `SYSTEM_TAG_RE` with `''`:
repeatedly find the leftmost `<t>...</t>` match and delete it, resuming
after the deleted match. Fuel-indexed for structural recursion; each step
consumes at least one character, so `l.length` fuel always suffices. -/
def removeTagsF : Nat → List Char → List Char
  | 0, l => l
  | _ + 1, [] => []
  | fuel + 1, c :: rest =>
    match matchOpen (c :: rest) with
    | some (t, after) =>
      match findClose t after with
      | some rest2 => removeTagsF fuel rest2
      | none => c :: removeTagsF fuel rest
    | none => c :: removeTagsF fuel rest

def removeTags (l : List Char) : List Char := removeTagsF l.length l

/-- `.replace(/[^\S\n]+/g, ' ')`: collapse each maximal run of horizontal
whitespace to a single space. The flag records whether the previous
character was horizontal whitespace (i.e. we are inside a run). -/
def collapseHWSA : Bool → List Char → List Char
  | _, [] => []
  | inRun, c :: rest =>
    if isHWS c then
      if inRun then collapseHWSA true rest else ' ' :: collapseHWSA true rest
    else c :: collapseHWSA false rest

def collapseHWS (l : List Char) : List Char := collapseHWSA false l

/-- `.replace(/\n{3,}/g, '\n\n')`: keep at most two newlines per maximal
newline run. `k` counts the newlines already emitted in the current run
(saturating at 2). -/
def collapseNLA : Nat → List Char → List Char
  | _, [] => []
  | k, c :: rest =>
    if c = '\n' then
      if 2 ≤ k then collapseNLA k rest else '\n' :: collapseNLA (k + 1) rest
    else c :: collapseNLA 0 rest

def collapseNL (l : List Char) : List Char := collapseNLA 0 l

/-- `String.prototype.trim`: drop JS whitespace from both ends. -/
def trimLeftJs (l : List Char) : List Char := l.dropWhile isJsWS

def trimRightJs (l : List Char) : List Char := (l.reverse.dropWhile isJsWS).reverse

def trimJs (l : List Char) : List Char := trimRightJs (trimLeftJs l)

/-- `cleanContent` (scanner.ts 492-500) on character lists. -/
def cleanContentL (l : List Char) : List Char :=
  trimJs (collapseNL (collapseHWS (removeTags l)))

/-- `cleanContent` on strings. -/
def cleanContent (s : String) : String := ⟨cleanContentL s.data⟩

/-! ### Normal forms of the whitespace pipeline

`hwsOK b l`: every horizontal-whitespace character of `l` is a plain space
and no two of them are adjacent (`b` = "previous char was horizontal
whitespace"). `nlOK k l`: no run of three or more consecutive newlines
(`k` = newlines immediately preceding). These are exactly the fixed-point
conditions of `collapseHWS` and `collapseNL`. -/

def hwsOK : Bool → List Char → Bool
  | _, [] => true
  | prev, c :: rest =>
    if isHWS c then (decide (c = ' ') && !prev) && hwsOK true rest
    else hwsOK false rest

def nlOK : Nat → List Char → Bool
  | _, [] => true
  | k, c :: rest =>
    if c = '\n' then decide (k < 2) && nlOK (k + 1) rest else nlOK 0 rest

/-- `twoNL l`: the first two characters of `l` exist and are both newlines. -/
def twoNL : List Char → Bool
  | c1 :: c2 :: _ => decide (c1 = '\n') && decide (c2 = '\n')
  | _ => false

/-- `hasTripleNL l`: some position of `l` starts three consecutive newline
characters, i.e. `l` contains a run of more than two newlines (more than
one consecutive blank line). -/
def hasTripleNL : List Char → Bool
  | [] => false
  | c :: rest => (decide (c = '\n') && twoNL rest) || hasTripleNL rest

/-! ### JSON value model

`JValue` models a value produced by `JSON.parse`: JSON objects are
association lists of string keys (distinct keys, as `JSON.parse` yields)
and numbers are modelled as integers (the transcript format uses only
integer counters).  An absent property (`undefined`) is modelled as
`Option.none` at access sites. -/

inductive JValue where
  | null : JValue
  | bool : Bool → JValue
  | num : Int → JValue
  | str : String → JValue
  | arr : List JValue → JValue
  | obj : List (String × JValue) → JValue

/-- JavaScript truthiness of a value. -/
def truthy : JValue → Bool
  | .null => false
  | .bool b => b
  | .num n => decide (n ≠ 0)
  | .str s => decide (s ≠ "")
  | .arr _ => true
  | .obj _ => true

/-- JS `typeof v === 'object'` (true for objects, arrays and `null`). -/
def typeofObject : JValue → Bool
  | .null => true
  | .arr _ => true
  | .obj _ => true
  | _ => false

/-- The values the guard `!raw || typeof raw !== 'object'` lets through:
truthy values of typeof `object`, i.e. (non-null) objects and arrays. -/
def isJsObject (v : JValue) : Bool := truthy v && typeofObject v

/-- Property access `v.k`: `none` models `undefined`. -/
def getField : JValue → String → Option JValue
  | .obj fields, k => fields.lookup k
  | _, _ => none

/-- `'k' in v`. -/
def hasField (v : JValue) (k : String) : Bool := (getField v k).isSome

/-- Truthiness of `v.k` (an absent property is falsy `undefined`). -/
def truthyField (v : JValue) (k : String) : Bool :=
  match getField v k with
  | some w => truthy w
  | none => false

/-- `v.k` when it is a string (for `v.k === 'lit'` comparisons). -/
def strField (v : JValue) (k : String) : Option String :=
  match getField v k with
  | some (.str s) => some s
  | _ => none

/-- `Object.keys(v).length` (objects have distinct keys; array keys are
its indices). -/
def keyCount : JValue → Nat
  | .obj fields => (fields.map Prod.fst).length
  | .arr xs => xs.length
  | _ => 0

/-- `(v.k as T) || d`: the property's value when truthy, else the default. -/
def fieldOr (v : JValue) (k : String) (d : JValue) : JValue :=
  match getField v k with
  | some w => if truthy w then w else d
  | none => d

/-- The JS string cast `x as string` applied where the transcript format
guarantees a string (model restriction: non-string values map to `""`). -/
def jvStr : JValue → String
  | .str s => s
  | _ => ""

/-! ### Tool-use blocks and tool results (shared/types, scanner.ts) -/

structure ToolUseBlock where
  id : String
  name : String
  input : JValue

/-- The closed set of classified tool-result variants (discriminated by
`type` in the source).  Payload fields are carried as the raw `JValue`s the
classifier's `as` casts pass through (`none` = the field was absent). -/
inductive ToolResult where
  | edit (filePath oldString newString structuredPatch : Option JValue)
      (userModified replaceAll : JValue)
  | write (filePath : Option JValue)
  | read (filePath : Option JValue)
  | bash (stdout stderr : Option JValue) (interrupted : JValue)
  | grep (mode filenames content : Option JValue) (numFiles numLines : JValue)
  | glob (filenames : Option JValue) (numFiles : JValue) (truncated : JValue)
  | taskAgent (status prompt agentId : Option JValue)
  | taskCreate (taskId subject : Option JValue)
  | taskUpdate (taskId updatedFields statusChange : Option JValue)
  | generic (toolName : String) (data : JValue)

/-- The `type` discriminator of a classified result. -/
def toolResultType : ToolResult → String
  | .edit _ _ _ _ _ _ => "edit"
  | .write _ => "write"
  | .read _ => "read"
  | .bash _ _ _ => "bash"
  | .grep _ _ _ _ _ => "grep"
  | .glob _ _ _ => "glob"
  | .taskAgent _ _ _ => "taskAgent"
  | .taskCreate _ _ => "taskCreate"
  | .taskUpdate _ _ _ => "taskUpdate"
  | .generic _ _ => "generic"

/-! ### The tool-result classifier (scanner.ts 326-461)

Each predicate is the structural test of one branch, in source order;
`classifyBody` is the branch table after the `!raw || typeof raw !==
'object'` guard (which always returns a `ToolResult`: the last branch is an
unconditional `generic` fallback). -/

def editPred (raw : JValue) : Bool :=
  truthyField raw "structuredPatch" && hasField raw "oldString" && truthyField raw "filePath"

def writePred (raw : JValue) : Bool :=
  (strField raw "type" == some "create") && truthyField raw "filePath"

/-- `raw.type === 'text' && raw.file && typeof raw.file === 'object'`
together with the nested `file.filePath` truthiness on which the branch
returns (otherwise the source falls through to the next branch). -/
def readPred (raw : JValue) : Bool :=
  (strField raw "type" == some "text") &&
    (match getField raw "file" with
     | some f => truthy f && typeofObject f && truthyField f "filePath"
     | none => false)

def bashPred (raw : JValue) : Bool := hasField raw "stdout" && hasField raw "stderr"

def grepPred (raw : JValue) : Bool :=
  hasField raw "mode" && hasField raw "numLines" && hasField raw "filenames"

def globPred (raw : JValue) : Bool :=
  hasField raw "filenames" && hasField raw "numFiles" && !hasField raw "mode"

def taskAgentPred (raw : JValue) : Bool :=
  hasField raw "status" && hasField raw "prompt" && hasField raw "agentId"

/-- `'task' in raw && typeof raw.task === 'object' && raw.task !== null`
with the nested `task.id && task.subject` truthiness on which the branch
returns. -/
def taskCreatePred (raw : JValue) : Bool :=
  match getField raw "task" with
  | some t =>
    typeofObject t && !(t matches .null) && truthyField t "id" && truthyField t "subject"
  | none => false

def taskUpdatePred (raw : JValue) : Bool :=
  hasField raw "taskId" && hasField raw "updatedFields"

def messageOnlyPred (raw : JValue) : Bool :=
  hasField raw "message" && decide (keyCount raw = 1)

/-- Tool-name resolution for the `generic` variants: the first
`tool_result` item of the sibling content array, its truthy string
`tool_use_id`, looked up in the pending tool-use map. -/
def resolveToolName (messageContent : JValue)
    (pendingToolUses : List (String × ToolUseBlock)) : String :=
  match messageContent with
  | .arr items =>
    match items.find? (fun i => strField i "type" == some "tool_result") with
    | some item =>
      match getField item "tool_use_id" with
      | some (.str s) =>
        if s ≠ "" then
          match pendingToolUses.lookup s with
          | some b => b.name
          | none => "unknown"
        else "unknown"
      | _ => "unknown"
    | none => "unknown"
  | _ => "unknown"

def classifyBody (raw : JValue) (messageContent : JValue)
    (pendingToolUses : List (String × ToolUseBlock)) : ToolResult :=
  if editPred raw then
    .edit (getField raw "filePath") (getField raw "oldString") (getField raw "newString")
      (getField raw "structuredPatch") (fieldOr raw "userModified" (.bool false))
      (fieldOr raw "replaceAll" (.bool false))
  else if writePred raw then
    .write (getField raw "filePath")
  else if readPred raw then
    .read (getField ((getField raw "file").getD .null) "filePath")
  else if bashPred raw then
    .bash (getField raw "stdout") (getField raw "stderr")
      (fieldOr raw "interrupted" (.bool false))
  else if grepPred raw then
    .grep (getField raw "mode") (getField raw "filenames") (getField raw "content")
      (fieldOr raw "numFiles" (.num 0)) (fieldOr raw "numLines" (.num 0))
  else if globPred raw then
    .glob (getField raw "filenames") (fieldOr raw "numFiles" (.num 0))
      (fieldOr raw "truncated" (.bool false))
  else if taskAgentPred raw then
    .taskAgent (getField raw "status") (getField raw "prompt") (getField raw "agentId")
  else if taskCreatePred raw then
    .taskCreate (getField ((getField raw "task").getD .null) "id")
      (getField ((getField raw "task").getD .null) "subject")
  else if taskUpdatePred raw then
    .taskUpdate (getField raw "taskId") (getField raw "updatedFields")
      (getField raw "statusChange")
  else if messageOnlyPred raw then
    .generic (resolveToolName messageContent pendingToolUses) raw
  else
    .generic (resolveToolName messageContent pendingToolUses) raw

/-- `classifyToolResult` (scanner.ts 326-461). -/
def classifyToolResult (raw : JValue) (messageContent : JValue)
    (pendingToolUses : List (String × ToolUseBlock)) : Option ToolResult :=
  if isJsObject raw then some (classifyBody raw messageContent pendingToolUses)
  else none

/-- A payload carrying both `stdout` and `stderr` that also satisfies the
higher-priority `edit` predicate (`structuredPatch` + `oldString` +
`filePath`). -/
def bashEditRaw : JValue :=
  .obj [("stdout", .str "out"), ("stderr", .str "err"),
    ("structuredPatch", .arr [.obj []]), ("oldString", .str "a"),
    ("filePath", .str "/tmp/f")]

/-- A payload carrying both `stdout` and `stderr` that also satisfies the
lower-priority `grep` predicate (`mode` + `numLines` + `filenames`). -/
def bashGrepRaw : JValue :=
  .obj [("stdout", .str "o"), ("stderr", .str ""), ("mode", .str "content"),
    ("numLines", .num 3), ("filenames", .arr [.str "f"])]

/-! ### JS string comparison

`s > t` on JS strings compares UTF-16 code units lexicographically. -/

def utf16Units (c : Char) : List Nat :=
  if c.toNat < 0x10000 then [c.toNat]
  else [0xd800 + (c.toNat - 0x10000) / 0x400, 0xdc00 + (c.toNat - 0x10000) % 0x400]

def lexLtNat : List Nat → List Nat → Bool
  | _, [] => false
  | [], _ :: _ => true
  | a :: as, b :: bs => decide (a < b) || (decide (a = b) && lexLtNat as bs)

/-- JS `s < t` for strings. -/
def jsStrLt (s t : String) : Bool :=
  lexLtNat (s.data.flatMap utf16Units) (t.data.flatMap utf16Units)

/-! ### Transcript entries (one JSON-parseable JSONL line)

String-valued metadata fields are `Option String` (`none` = property
absent); the transcript format carries these as JSON strings.  Token
counters are integers (0 conflated with absent: both are falsy). -/

structure Usage where
  input_tokens : Int := 0
  output_tokens : Int := 0
  cache_read_input_tokens : Int := 0
  cache_creation_input_tokens : Int := 0

structure MsgBody where
  content : JValue := .null
  model : Option String := none
  stop_reason : Option JValue := none
  usage : Option Usage := none

structure Entry where
  cwd : Option String := none
  sessionId : Option String := none
  slug : Option String := none
  timestamp : Option String := none
  type : Option String := none
  isMeta : Bool := false
  message : Option MsgBody := none
  toolUseResult : Option JValue := none
  gitBranch : Option String := none
  version : Option String := none

/-- A raw transcript line: `none` when blank or not JSON-parseable (both
are skipped, though the line number still advances). -/
abbrev JsonLine := Option Entry

/-- JS truthiness of an optional string property. -/
def optTruthy : Option String → Bool
  | some s => decide (s ≠ "")
  | none => false

/-- `o` when its value is truthy, else absent (the `if (x) meta.f = x`
assembly pattern). -/
def keepTruthy : Option String → Option String
  | some s => if s ≠ "" then some s else none
  | none => none

def keepNonzero (n : Int) : Option Int := if n ≠ 0 then some n else none

/-! ### Conversation data model (scanner.ts 8-50) -/

structure MessageMetadata where
  model : Option String := none
  stopReason : Option JValue := none
  inputTokens : Option Int := none
  outputTokens : Option Int := none
  cacheReadTokens : Option Int := none
  cacheCreationTokens : Option Int := none
  gitBranch : Option String := none
  version : Option String := none
  toolUses : Option (List String) := none
  toolUseBlocks : Option (List ToolUseBlock) := none
  toolResults : Option (List ToolResult) := none

/-- `Object.keys(metadata).length > 0` is false: no field was assigned. -/
def MessageMetadata.isEmptyMeta (m : MessageMetadata) : Bool :=
  m.model.isNone && m.stopReason.isNone && m.inputTokens.isNone &&
  m.outputTokens.isNone && m.cacheReadTokens.isNone && m.cacheCreationTokens.isNone &&
  m.gitBranch.isNone && m.version.isNone && m.toolUses.isNone &&
  m.toolUseBlocks.isNone && m.toolResults.isNone

structure ConversationMessage where
  type : String
  content : String
  timestamp : String
  metadata : Option MessageMetadata
  lineNumber : Nat
  isToolResult : Bool

structure Conversation where
  id : String
  filePath : String
  projectPath : String
  projectName : String
  sessionId : String
  sessionName : String
  messages : List ConversationMessage
  fullText : String
  timestamp : String
  messageCount : Nat

/-! ### Content extraction (scanner.ts 268-320) -/

/-- One item of an array-shaped message content (model restriction: the
`text` / `content` payloads the transcript format carries are strings;
a truthy non-string `text` would crash the JS parser for the file). -/
def extractItemText (item : JValue) : String :=
  match item with
  | .str s => s
  | _ =>
    if strField item "type" == some "text" then
      match getField item "text" with
      | some (.str s) => s
      | _ => ""
    else if strField item "type" == some "tool_result" then
      match getField item "content" with
      | some (.str s) => s
      | _ => ""
    else ""

def extractContent (content : JValue) : String :=
  match content with
  | .str s => cleanContent s
  | .arr items =>
    String.intercalate " " (((items.map extractItemText).filter (· ≠ "")).map cleanContent)
  | _ => ""

def extractToolUseNames (content : JValue) : List String :=
  match content with
  | .arr items =>
    ((items.filter fun i => (strField i "type" == some "tool_use") && truthyField i "name").map
      fun i => jvStr ((getField i "name").getD .null))
  | _ => []

def extractToolUseBlocks (content : JValue) : List ToolUseBlock :=
  match content with
  | .arr items =>
    ((items.filter fun i => (strField i "type" == some "tool_use") && truthyField i "name" &&
        truthyField i "id").map
      fun i =>
        ⟨jvStr ((getField i "id").getD .null), jvStr ((getField i "name").getD .null),
          fieldOr i "input" (.obj [])⟩)
  | _ => []

def isOnlyToolResult (content : JValue) : Bool :=
  match content with
  | .arr items =>
    decide (0 < items.length) && items.all fun i => strField i "type" == some "tool_result"
  | _ => false

/-- `Map.set`: replace an existing binding in place, else append. -/
def mapSet : List (String × ToolUseBlock) → String → ToolUseBlock → List (String × ToolUseBlock)
  | [], k, v => [(k, v)]
  | (k', v') :: rest, k, v =>
    if k' = k then (k, v) :: rest else (k', v') :: mapSet rest k v

/-! ### The streaming parse fold (scanner.ts 146-266) -/

/-- The running-maximum timestamp update (scanner.ts 183-187):
`if (entry.timestamp) { if (!latestTimestamp || entry.timestamp >
latestTimestamp) latestTimestamp = entry.timestamp }`. -/
def tsStep (latest : String) (e : Entry) : String :=
  match e.timestamp with
  | some t => if decide (t ≠ "") && (decide (latest = "") || jsStrLt latest t) then t else latest
  | none => latest

structure PState where
  messages : List ConversationMessage
  sessionId : String
  sessionName : String
  latestTimestamp : String
  cwd : String
  textParts : List String
  pending : List (String × ToolUseBlock)

def initPState : PState := ⟨[], "", "", "", "", [], []⟩

/-- The sparse-metadata assembly (scanner.ts 213-231). -/
def buildMetadata (e : Entry) (toolUseBlocks : List ToolUseBlock)
    (toolResults : Option (List ToolResult)) (toolUseNames : List String) : MessageMetadata :=
  let usage := e.message.bind (·.usage)
  { model := keepTruthy (e.message.bind (·.model))
    stopReason := e.message.bind (·.stop_reason)
    inputTokens := usage.bind fun u => keepNonzero u.input_tokens
    outputTokens := usage.bind fun u => keepNonzero u.output_tokens
    cacheReadTokens := usage.bind fun u => keepNonzero u.cache_read_input_tokens
    cacheCreationTokens := usage.bind fun u => keepNonzero u.cache_creation_input_tokens
    gitBranch := keepTruthy e.gitBranch
    version := keepTruthy e.version
    toolUses := if 0 < toolUseNames.length then some toolUseNames else none
    toolUseBlocks := if 0 < toolUseBlocks.length then some toolUseBlocks else none
    toolResults := toolResults }

/-- One loop iteration of `parseConversation` for a parsed line. -/
def processEntry (st : PState) (lineNumber : Nat) (e : Entry) : PState :=
  let cwd' := if optTruthy e.cwd && decide (st.cwd = "") then e.cwd.getD "" else st.cwd
  let sessionId' :=
    if optTruthy e.sessionId && decide (st.sessionId = "") then e.sessionId.getD ""
    else st.sessionId
  let sessionName' :=
    if optTruthy e.slug && decide (st.sessionName = "") then e.slug.getD ""
    else st.sessionName
  let latest' := tsStep st.latestTimestamp e
  if ((e.type == some "user") || (e.type == some "assistant")) && !e.isMeta then
    let msgContent := match e.message with
      | some m => m.content
      | none => .null
    let toolUseBlocks := extractToolUseBlocks msgContent
    let pending' := toolUseBlocks.foldl (fun m b => mapSet m b.id b) st.pending
    let hasTUR := (e.type == some "user") &&
      (match e.toolUseResult with
       | some v => truthy v
       | none => false)
    let isTRM := hasTUR && isOnlyToolResult msgContent
    let toolResults :=
      if hasTUR then
        match classifyToolResult ((e.toolUseResult).getD .null) msgContent pending' with
        | some c => some [c]
        | none => none
      else none
    let content := extractContent msgContent
    if decide (content ≠ "") || isTRM then
      let md := buildMetadata e toolUseBlocks toolResults (extractToolUseNames msgContent)
      let msg : ConversationMessage :=
        ⟨(e.type).getD "", content, (e.timestamp).getD "",
          (if md.isEmptyMeta then none else some md), lineNumber, isTRM⟩
      ⟨st.messages ++ [msg], sessionId', sessionName', latest', cwd',
        (if content ≠ "" then st.textParts ++ [content] else st.textParts), pending'⟩
    else
      ⟨st.messages, sessionId', sessionName', latest', cwd', st.textParts, pending'⟩
  else
    ⟨st.messages, sessionId', sessionName', latest', cwd', st.textParts, st.pending⟩

/-- The whole line loop: line numbers are 1-based and advance on every
line, including skipped ones. -/
def runParse (lines : List JsonLine) : PState :=
  (lines.enum).foldl
    (fun st p =>
      match p.2 with
      | some e => processEntry st (p.1 + 1) e
      | none => st)
    initPState

/-- `getShortProjectName` (scanner.ts 502-507). -/
def getShortProjectName (fullPath : String) : String :=
  String.intercalate "/" ((((fullPath.splitOn "/").filter (· ≠ "")).reverse.take 3).reverse)

/-- `.replace(pat, '')` with a plain-string pattern: remove the first
occurrence only. -/
def replaceFirstL (pat : List Char) : List Char → List Char
  | [] => []
  | c :: rest =>
    if pat.isPrefixOf (c :: rest) then (c :: rest).drop pat.length
    else c :: replaceFirstL pat rest

/-- `filePath.split('/').pop()?.replace('.jsonl', '') || ''` (scanner.ts 259). -/
def sessionIdFallback (filePath : String) : String :=
  match (filePath.splitOn "/").getLast? with
  | some s => ⟨replaceFirstL ".jsonl".data s.data⟩
  | none => ""

/-- `decodeProjectName` (scanner.ts 141-144): first a leading `-` is
replaced by `/`, then every remaining `-` is replaced by `/` (the two
`.replace` calls, in source order). -/
def decodeProjectName (encoded : String) : String :=
  let l1 := match encoded.data with
    | '-' :: rest => '/' :: rest
    | l => l
  ⟨l1.map fun c => if c = '-' then '/' else c⟩

/-- `parseConversation` (scanner.ts 146-266). `now` stands for
`new Date().toISOString()` at the fallback on line 263. -/
def parseConversation (filePath : String) (lines : List JsonLine)
    (fallbackProjectName : String) (now : String) : Option Conversation :=
  let st := runParse lines
  if st.messages.isEmpty then none
  else
    let projectPath := if st.cwd ≠ "" then st.cwd else fallbackProjectName
    some ⟨filePath, filePath, projectPath, getShortProjectName projectPath,
      (if st.sessionId ≠ "" then st.sessionId else sessionIdFallback filePath),
      st.sessionName, st.messages, String.intercalate " " st.textParts,
      (if st.latestTimestamp ≠ "" then st.latestTimestamp else now),
      st.messages.length⟩

/-! ### The corpus scan (scanner.ts 63-115)

Directory walking is filesystem I/O; the model starts from the discovered
candidate files, each with its containing project-directory name, byte
size and parsed lines.  `dateVal` stands for `new Date(ts).getTime()`;
JS `Array.prototype.sort` is stable, modelled as a stable insertion sort
on the comparator `(a, b) => dateVal b - dateVal a`. -/

structure JFile where
  path : String
  projectDir : String
  size : Nat
  lines : List JsonLine

/-- Stable descending insertion: an element goes after every element of
key ≥ its own. -/
def insertByDesc {α : Type} (key : α → Int) (c : α) : List α → List α
  | [] => [c]
  | d :: rest =>
    if key c ≤ key d then d :: insertByDesc key c rest else c :: d :: rest

def sortByTimestampDesc (dateVal : String → Int) (l : List Conversation) : List Conversation :=
  l.foldl (fun acc c => insertByDesc (fun x => dateVal x.timestamp) c acc) []

/-- `scanAll` over the discovered files: skip empty files, parse, keep
non-empty conversations, sort by timestamp descending. -/
def scanAllModel (dateVal : String → Int) (now : String) (files : List JFile) :
    List Conversation :=
  sortByTimestampDesc dateVal
    (files.foldl
      (fun acc f =>
        if f.size = 0 then acc
        else
          match parseConversation f.path f.lines (decodeProjectName f.projectDir) now with
          | some conv => if 0 < conv.messages.length then acc ++ [conv] else acc
          | none => acc)
      [])

/-- Modelled from the spec: the external transcript producer's encoding of
a working-directory path into a project-directory name, absent from this
repository's code — "its encoding replaces path separators with a fixed
delimiter character" (§4.3), the delimiter being the `-` that
`decodeProjectName` reverses. -/
def encodePath (p : String) : String :=
  ⟨p.data.map fun c => if c = '/' then '-' else c⟩

/-- The non-empty (JS-truthy) timestamp values the parser observes, in
stream order: exactly the values that can update `latestTimestamp`. -/
def obsTs (es : List Entry) : List String :=
  es.filterMap fun e =>
    match e.timestamp with
    | some t => if t = "" then none else some t
    | none => none

/-! ### Concrete transcript lines for counterexamples and witnesses -/

/-- A user line whose `timestamp` field is present but the empty string
(falsy in JS, so the parser never records it). -/
def c3EmptyTsLine : Entry :=
  { type := some "user", timestamp := some "", message := some { content := .str "hi" } }

def c3File : List JsonLine := [some c3EmptyTsLine]

def c3e1 : Entry :=
  { type := some "user", timestamp := some "2024-01-01T00:00:00Z",
    message := some { content := .str "hi" } }

/-- A metadata-only line (no `type`): it produces no message but carries
the latest timestamp of the file. -/
def c3e2 : Entry := { timestamp := some "2024-02-02T00:00:00Z" }

def c3WitFile : List JsonLine := [some c3e1, some c3e2]

/-! ### The search indexer (`SearchIndexer`)

`documents` is the insertion-ordered `Map<string, IndexedDocument>`;
`flexAdded` records every document ever `.add`ed to the FlexSearch index
(`buildIndex` clears the Map but never the FlexSearch index).  The
FlexSearch engine itself is opaque: its `index.search` output is modelled
as an arbitrary `oracle` of field-grouped id lists, so every theorem below
holds for anything the engine can return.  `dateVal` stands for
`new Date(ts).getTime()`. -/

structure IndexedDocument where
  id : String
  projectName : String
  content : String
  timestamp : String
  messageCount : Nat

structure SearchResult where
  id : String
  projectName : String
  preview : String
  timestamp : String
  messageCount : Nat
  score : Int

/-- `Map.set` on an insertion-ordered association list: replace an existing
binding in place, else append. -/
def assocSet {β : Type} : List (String × β) → String → β → List (String × β)
  | [], k, v => [(k, v)]
  | (k', v') :: rest, k, v =>
    if k' = k then (k, v) :: rest else (k', v') :: assocSet rest k v

structure IndexerState where
  documents : List (String × IndexedDocument)
  flexAdded : List IndexedDocument

def emptyIndexer : IndexerState := ⟨[], []⟩

def docOfConv (conv : Conversation) : IndexedDocument :=
  ⟨conv.id, conv.projectName, conv.fullText, conv.timestamp, conv.messageCount⟩

def buildDocs (m : List (String × IndexedDocument)) (cs : List Conversation) :
    List (String × IndexedDocument) :=
  cs.foldl (fun m conv => assocSet m conv.id (docOfConv conv)) m

/-- `buildIndex` (part_007 lines 38-53): `documents.clear()` then one
`documents.set` + `index.add` per conversation. -/
def IndexerState.buildIndex (st : IndexerState) (conversations : List Conversation) :
    IndexerState :=
  ⟨buildDocs [] conversations, st.flexAdded ++ conversations.map docOfConv⟩

def IndexerState.getDocumentCount (st : IndexerState) : Nat := st.documents.length

/-- JS `s.includes(pat)`. -/
def containsSeq (pat : List Char) : List Char → Bool
  | [] => pat.isEmpty
  | c :: rest => pat.isPrefixOf (c :: rest) || containsSeq pat rest

def strIncludes (s pat : String) : Bool := containsSeq pat.data s.data

/-- `truncateText` (part_007 lines 148-151). -/
def truncateText (text : String) (maxLength : Nat) : String :=
  if text.data.length ≤ maxLength then text
  else ⟨text.data.take maxLength⟩ ++ "..."

/-- JS `indexOf`: index of the first occurrence of `pat`. -/
def idxOfSeq (pat : List Char) : List Char → Option Nat
  | [] => if pat.isEmpty then some 0 else none
  | c :: rest =>
    if pat.isPrefixOf (c :: rest) then some 0
    else (idxOfSeq pat rest).map (· + 1)

/-- `generatePreview` (part_007 lines 128-146).  The model works on
characters (JS indexes UTF-16 units) and lowercases characterwise. -/
def generatePreview (content query : String) : String :=
  match idxOfSeq (query.data.map Char.toLower) (content.data.map Char.toLower) with
  | none => truncateText content 200
  | some index =>
    let start := index - 80
    let endIdx := min content.data.length (index + query.data.length + 120)
    let core := (content.data.take endIdx).drop start
    let withLeft := if 0 < start then "...".data ++ core else core
    ⟨if endIdx < content.data.length then withLeft ++ "...".data else withLeft⟩

/-- The spec's description of the preview (§4.5 / C6), written from the
claim's words: the slice of the original text from `max(0, i-80)` to
`min(length, i + len(query) + 120)` around the first case-insensitive
occurrence `i`, an ellipsis prefixed iff the window does not start at 0 and
suffixed iff it does not reach the end; with no occurrence, the first 200
characters plus an ellipsis iff the text is longer than 200. -/
def previewSpec (content query : String) : String :=
  match idxOfSeq (query.data.map Char.toLower) (content.data.map Char.toLower) with
  | none =>
    if content.data.length ≤ 200 then content
    else ⟨content.data.take 200⟩ ++ "..."
  | some i =>
    let lo := (max 0 ((i : Int) - 80)).toNat
    let hi := min content.data.length (i + query.data.length + 120)
    (if lo ≠ 0 then "..." else "") ++ ⟨(content.data.drop lo).take (hi - lo)⟩ ++
      (if hi ≠ content.data.length then "..." else "")

def sortDocsByTsDesc (dateVal : String → Int) (l : List IndexedDocument) :
    List IndexedDocument :=
  l.foldl (fun acc d => insertByDesc (fun x => dateVal x.timestamp) d acc) []

/-- `getRecent` (part_007 lines 106-126): optional truthy project filter,
stable sort by date value descending, first `limit`, result assembly. -/
def IndexerState.getRecent (dateVal : String → Int) (st : IndexerState) (limit : Nat)
    (projectFilter : Option String) : List SearchResult :=
  let docs := st.documents.map Prod.snd
  let docs :=
    if optTruthy projectFilter then
      docs.filter fun d => strIncludes d.projectName (projectFilter.getD "")
    else docs
  ((sortDocsByTsDesc dateVal docs).take limit).map fun doc =>
    ⟨doc.id, doc.projectName, truncateText doc.content 200, doc.timestamp,
      doc.messageCount, 1⟩

/-- The non-empty-query collection loop of `search` (part_007 lines 66-103)
over the flattened id stream: dedup by `seen`, drop ids with no `documents`
entry, apply the truthy project filter, stop once `limit` results are
collected (the source checks the limit after each push, in both the inner
and the outer loop, which is exactly a stop-after-push on the flattened
stream). -/
def searchCollect (st : IndexerState) (query : String) (limit : Nat)
    (projectFilter : Option String) :
    List String → List String → List SearchResult → List SearchResult
  | [], _, acc => acc
  | id :: rest, seen, acc =>
    if seen.contains id then searchCollect st query limit projectFilter rest seen acc
    else
      match st.documents.lookup id with
      | none => searchCollect st query limit projectFilter rest (id :: seen) acc
      | some doc =>
        if optTruthy projectFilter &&
            !(strIncludes doc.projectName (projectFilter.getD "")) then
          searchCollect st query limit projectFilter rest (id :: seen) acc
        else
          let acc' := acc ++
            [⟨doc.id, doc.projectName, generatePreview doc.content query, doc.timestamp,
              doc.messageCount, 1⟩]
          if limit ≤ acc'.length then acc'
          else searchCollect st query limit projectFilter rest (id :: seen) acc'

/-- `search` (part_007 lines 55-104). -/
def IndexerState.search (dateVal : String → Int) (st : IndexerState)
    (oracle : List (List String)) (query : String) (limit : Nat)
    (projectFilter : Option String) : List SearchResult :=
  if (trimJs query.data).isEmpty then
    IndexerState.getRecent dateVal st limit projectFilter
  else searchCollect st query limit projectFilter oracle.flatten [] []

/-- Non-strictly descending by key. -/
def sortedDescB {α : Type} (key : α → Int) : List α → Bool
  | a :: b :: rest => decide (key b ≤ key a) && sortedDescB key (b :: rest)
  | _ => true

/-- Strictly descending by key. -/
def strictDescB {α : Type} (key : α → Int) : List α → Bool
  | a :: b :: rest => decide (key b < key a) && strictDescB key (b :: rest)
  | _ => true

/-- A 10000-character document whose only `x` is at index 5000. -/
def bigDoc : String := ⟨List.replicate 5000 'a' ++ 'x' :: List.replicate 4999 'a'⟩

/-- `new Date(ts).getTime()` when every indexed timestamp is the same
instant: one constant value. -/
def dv0 : String → Int := fun _ => 0

def cmsg : ConversationMessage :=
  ⟨"user", "hello world", "2024-01-01T00:00:00Z", none, 1, false⟩

def convA : Conversation :=
  ⟨"idA", "idA", "/p/a", "p/a", "sA", "", [cmsg], "hello world",
    "2024-01-01T00:00:00Z", 1⟩

/-- A second conversation carrying the same timestamp as `convA`. -/
def convB : Conversation :=
  ⟨"idB", "idB", "/p/b", "p/b", "sB", "", [cmsg], "hello there",
    "2024-01-01T00:00:00Z", 1⟩

theorem isHWS_space : isHWS ' ' = true := rfl

theorem isHWS_nl : isHWS '\n' = false := rfl

theorem isJsWS_of_isHWS {c : Char} (h : isHWS c = true) : isJsWS c = true := by
  simp [isHWS] at h; exact h.1

theorem hwsOK_collapseHWSA (l : List Char) : ∀ b, hwsOK b (collapseHWSA b l) = true := by
  induction l with
  | nil => intro b; rfl
  | cons c rest ih =>
    intro b
    by_cases hc : isHWS c = true
    · cases b with
      | false =>
        simp only [collapseHWSA, hc, if_true, if_false, Bool.false_eq_true]
        simpa [hwsOK, isHWS_space] using ih true
      | true =>
        simpa only [collapseHWSA, hc, if_true] using ih true
    · simp only [collapseHWSA, hc, if_false, Bool.false_eq_true, hwsOK]
      exact ih false

theorem hwsOK_weaken {l : List Char} (h : hwsOK true l = true) : hwsOK false l = true := by
  cases l with
  | nil => rfl
  | cons c rest =>
    by_cases hc : isHWS c = true
    · simp [hwsOK, hc] at h
    · simpa [hwsOK, hc] using h

theorem hwsOK_tail {b : Bool} {c : Char} {l : List Char}
    (h : hwsOK b (c :: l) = true) : hwsOK false l = true := by
  by_cases hc : isHWS c = true
  · simp only [hwsOK, hc, if_true, Bool.and_eq_true] at h
    exact hwsOK_weaken h.2
  · simpa [hwsOK, hc] using h

theorem collapseHWSA_id (l : List Char) : ∀ b, hwsOK b l = true → collapseHWSA b l = l := by
  induction l with
  | nil => intro b _; rfl
  | cons c rest ih =>
    intro b h
    by_cases hc : isHWS c = true
    · simp only [hwsOK, hc, if_true, Bool.and_eq_true, decide_eq_true_eq,
        Bool.not_eq_eq_eq_not, Bool.not_true] at h
      obtain ⟨⟨hsp, hb⟩, hrest⟩ := h
      subst hb; subst hsp
      simp [collapseHWSA, isHWS_space, ih true hrest]
    · simp only [hwsOK, hc, if_false, Bool.false_eq_true] at h
      simp only [collapseHWSA, hc, if_false, Bool.false_eq_true, ih false h]

theorem nlOK_mono {l : List Char} : ∀ {k j : Nat}, j ≤ k → nlOK k l = true → nlOK j l = true := by
  induction l with
  | nil => intro k j _ _; rfl
  | cons c rest ih =>
    intro k j hjk h
    by_cases hc : c = '\n'
    · simp only [nlOK, hc, if_true, Bool.and_eq_true, decide_eq_true_eq] at h ⊢
      exact ⟨by omega, ih (by omega) h.2⟩
    · simpa only [nlOK, hc, if_false] using h

theorem nlOK_collapseNLA (l : List Char) : ∀ k, nlOK (min k 2) (collapseNLA k l) = true := by
  induction l with
  | nil => intro k; rfl
  | cons c rest ih =>
    intro k
    by_cases hc : c = '\n'
    · by_cases hk : 2 ≤ k
      · simpa only [collapseNLA, hc, if_true, hk] using ih k
      · have hmin : min k 2 = k := by omega
        have hmin' : min (k + 1) 2 = k + 1 := by omega
        simp only [collapseNLA, hc, if_true, hk, if_false, hmin, nlOK, Bool.and_eq_true,
          decide_eq_true_eq]
        exact ⟨by omega, by simpa only [hmin'] using ih (k + 1)⟩
    · simp only [collapseNLA, hc, if_false, nlOK]
      simpa only [Nat.min_self, Nat.zero_min, Nat.min_zero] using ih 0

theorem collapseNLA_id (l : List Char) : ∀ k, nlOK k l = true → collapseNLA k l = l := by
  induction l with
  | nil => intro k _; rfl
  | cons c rest ih =>
    intro k h
    by_cases hc : c = '\n'
    · simp only [nlOK, hc, if_true, Bool.and_eq_true, decide_eq_true_eq] at h
      have hk : ¬ 2 ≤ k := by omega
      simp only [collapseNLA, hc, if_true, hk, if_false, ih (k + 1) h.2]
    · simp only [nlOK, hc, if_false] at h
      simp only [collapseNLA, hc, if_false, ih 0 h]

theorem nlOK_tail {k : Nat} {c : Char} {l : List Char}
    (h : nlOK k (c :: l) = true) : nlOK 0 l = true := by
  by_cases hc : c = '\n'
  · simp only [nlOK, hc, if_true, Bool.and_eq_true] at h
    exact nlOK_mono (Nat.zero_le _) h.2
  · simpa only [nlOK, hc, if_false] using h

theorem nlOK_take {l : List Char} : ∀ {n k : Nat}, nlOK k l = true → nlOK k (l.take n) = true := by
  induction l with
  | nil => intro n k _; simp [nlOK]
  | cons c rest ih =>
    intro n k h
    cases n with
    | zero => rfl
    | succ n =>
      by_cases hc : c = '\n'
      · simp only [nlOK, hc, if_true, Bool.and_eq_true] at h
        simp only [List.take_succ_cons, nlOK, hc, if_true, Bool.and_eq_true]
        exact ⟨h.1, ih h.2⟩
      · simp only [nlOK, hc, if_false] at h
        simp only [List.take_succ_cons, nlOK, hc, if_false]
        exact ih h

theorem hwsOK_take {l : List Char} : ∀ {n : Nat} {b : Bool},
    hwsOK b l = true → hwsOK b (l.take n) = true := by
  induction l with
  | nil => intro n b _; simp [hwsOK]
  | cons c rest ih =>
    intro n b h
    cases n with
    | zero => rfl
    | succ n =>
      by_cases hc : isHWS c = true
      · simp only [hwsOK, hc, if_true, Bool.and_eq_true] at h
        simp only [List.take_succ_cons, hwsOK, hc, if_true, Bool.and_eq_true]
        exact ⟨h.1, ih h.2⟩
      · simp only [hwsOK, hc, if_false, Bool.false_eq_true] at h
        simp only [List.take_succ_cons, hwsOK, hc, if_false, Bool.false_eq_true]
        exact ih h

theorem nlOK_dropWhile {p : Char → Bool} {l : List Char}
    (h : nlOK 0 l = true) : nlOK 0 (l.dropWhile p) = true := by
  induction l with
  | nil => rfl
  | cons c rest ih =>
    by_cases hp : p c = true
    · simp only [List.dropWhile_cons, hp, if_true]
      exact ih (nlOK_tail h)
    · simpa only [List.dropWhile_cons, hp, if_false, Bool.false_eq_true] using h

theorem hwsOK_dropWhile {p : Char → Bool} {l : List Char}
    (h : hwsOK false l = true) : hwsOK false (l.dropWhile p) = true := by
  induction l with
  | nil => rfl
  | cons c rest ih =>
    by_cases hp : p c = true
    · simp only [List.dropWhile_cons, hp, if_true]
      exact ih (hwsOK_tail h)
    · simpa only [List.dropWhile_cons, hp, if_false, Bool.false_eq_true] using h

theorem dropWhile_eq_drop (p : Char → Bool) (l : List Char) :
    ∃ k, l.dropWhile p = l.drop k := by
  induction l with
  | nil => exact ⟨0, rfl⟩
  | cons c rest ih =>
    by_cases hp : p c = true
    · obtain ⟨k, hk⟩ := ih
      exact ⟨k + 1, by simpa only [List.dropWhile_cons, hp, if_true, List.drop_succ_cons] using hk⟩
    · exact ⟨0, by simp only [List.dropWhile_cons, hp, if_false, Bool.false_eq_true, List.drop_zero]⟩

theorem trimRightJs_eq_take (l : List Char) : ∃ n, trimRightJs l = l.take n := by
  obtain ⟨k, hk⟩ := dropWhile_eq_drop isJsWS l.reverse
  refine ⟨l.length - k, ?_⟩
  simp only [trimRightJs, hk, List.reverse_drop, List.reverse_reverse, List.length_reverse]

theorem nlOK_trimJs {l : List Char} (h : nlOK 0 l = true) : nlOK 0 (trimJs l) = true := by
  obtain ⟨n, hn⟩ := trimRightJs_eq_take (trimLeftJs l)
  rw [trimJs, hn]
  exact nlOK_take (nlOK_dropWhile h)

theorem hwsOK_trimJs {l : List Char} (h : hwsOK false l = true) :
    hwsOK false (trimJs l) = true := by
  obtain ⟨n, hn⟩ := trimRightJs_eq_take (trimLeftJs l)
  rw [trimJs, hn]
  exact hwsOK_take (hwsOK_dropWhile h)

theorem collapseNLA_hwsOK (l : List Char) : ∀ (k : Nat) (b : Bool), (2 ≤ k → b = false) →
    hwsOK b l = true → hwsOK b (collapseNLA k l) = true := by
  induction l with
  | nil => intro k b _ _; rfl
  | cons c rest ih =>
    intro k b hkb h
    by_cases hc : c = '\n'
    · have hch : isHWS c = false := by rw [hc]; rfl
      simp only [hwsOK, hch, if_false, Bool.false_eq_true] at h
      by_cases hk : 2 ≤ k
      · rw [hkb hk]
        simp only [collapseNLA, hc, if_true, hk]
        exact ih k false (fun _ => rfl) h
      · simp only [collapseNLA, hc, if_true, hk, if_false, hwsOK, hch, Bool.false_eq_true]
        exact ih (k + 1) false (fun _ => rfl) h
    · by_cases hch : isHWS c = true
      · simp only [hwsOK, hch, if_true, Bool.and_eq_true] at h
        simp only [collapseNLA, hc, if_false, hwsOK, hch, if_true, Bool.and_eq_true]
        exact ⟨h.1, ih 0 true (by omega) h.2⟩
      · simp only [hwsOK, hch, if_false, Bool.false_eq_true] at h
        simp only [collapseNLA, hc, if_false, hwsOK, hch, Bool.false_eq_true]
        exact ih 0 false (by omega) h

theorem head_lt_of_findOpen {l : List Char} {x : List Char × List Char} :
    ∀ ts : List (List Char),
    (ts.findSome? fun t =>
      if (openTok t).isPrefixOf l then some (t, l.drop (openTok t).length) else none) = some x →
    l.head? = some '<' := by
  intro ts
  induction ts with
  | nil => intro h; simp at h
  | cons t ts ih =>
    intro h
    rw [List.findSome?_cons] at h
    by_cases hp : (openTok t).isPrefixOf l = true
    · cases l with
      | nil => simp [openTok, List.isPrefixOf] at hp
      | cons c rest =>
        simp only [openTok, List.isPrefixOf, List.cons_append, Bool.and_eq_true, beq_iff_eq] at hp
        simp only [List.head?_cons, Option.some.injEq]
        exact hp.1.symm
    · simp only [hp, if_false, Bool.false_eq_true] at h
      exact ih h

theorem head_lt_of_matchOpen {l : List Char} {x : List Char × List Char}
    (h : matchOpen l = some x) : l.head? = some '<' :=
  head_lt_of_findOpen systemTags h

theorem removeTagsF_id_of_no_lt : ∀ (fuel : Nat) (l : List Char),
    '<' ∉ l → removeTagsF fuel l = l := by
  intro fuel
  induction fuel with
  | zero => intro l _; rfl
  | succ fuel ih =>
    intro l hl
    cases l with
    | nil => rfl
    | cons c rest =>
      have hmo : matchOpen (c :: rest) = none := by
        cases hmo : matchOpen (c :: rest) with
        | none => rfl
        | some x =>
          have := head_lt_of_matchOpen hmo
          simp only [List.head?_cons, Option.some.injEq] at this
          exact absurd (this ▸ List.mem_cons_self c rest) hl
      simp only [removeTagsF, hmo]
      exact congrArg (c :: ·) (ih rest (fun hm => hl (List.mem_cons_of_mem c hm)))

theorem removeTags_id_of_no_lt {l : List Char} (h : '<' ∉ l) : removeTags l = l :=
  removeTagsF_id_of_no_lt l.length l h

theorem mem_collapseHWSA {c : Char} : ∀ {l : List Char} {b : Bool},
    c ∈ collapseHWSA b l → c ∈ l ∨ c = ' ' := by
  intro l
  induction l with
  | nil => intro b h; simp [collapseHWSA] at h
  | cons d rest ih =>
    intro b h
    by_cases hd : isHWS d = true
    · cases b with
      | true =>
        simp only [collapseHWSA, hd, if_true] at h
        rcases ih h with hm | hs
        · exact Or.inl (List.mem_cons_of_mem d hm)
        · exact Or.inr hs
      | false =>
        simp only [collapseHWSA, hd, if_true, Bool.false_eq_true, if_false,
          List.mem_cons] at h
        rcases h with hc | h
        · exact Or.inr hc
        · rcases ih h with hm | hs
          · exact Or.inl (List.mem_cons_of_mem d hm)
          · exact Or.inr hs
    · simp only [collapseHWSA, hd, if_false, Bool.false_eq_true, List.mem_cons] at h
      rcases h with hc | h
      · exact Or.inl (hc ▸ List.mem_cons_self d rest)
      · rcases ih h with hm | hs
        · exact Or.inl (List.mem_cons_of_mem d hm)
        · exact Or.inr hs

theorem mem_collapseNLA {c : Char} : ∀ {l : List Char} {k : Nat},
    c ∈ collapseNLA k l → c ∈ l := by
  intro l
  induction l with
  | nil => intro k h; simp [collapseNLA] at h
  | cons d rest ih =>
    intro k h
    by_cases hd : d = '\n'
    · by_cases hk : 2 ≤ k
      · simp only [collapseNLA, hd, if_true, hk] at h
        exact List.mem_cons_of_mem d (ih h)
      · simp only [collapseNLA, hd, if_true, hk, if_false, List.mem_cons] at h
        rcases h with hc | h
        · rw [hc, ← hd]; exact List.mem_cons_self d rest
        · exact List.mem_cons_of_mem d (ih h)
    · simp only [collapseNLA, hd, if_false, List.mem_cons] at h
      rcases h with hc | h
      · rw [hc]; exact List.mem_cons_self d rest
      · exact List.mem_cons_of_mem d (ih h)

theorem mem_trimJs {c : Char} {l : List Char} (h : c ∈ trimJs l) : c ∈ l := by
  obtain ⟨n, hn⟩ := trimRightJs_eq_take (trimLeftJs l)
  rw [trimJs, hn] at h
  exact (List.dropWhile_sublist isJsWS).subset (List.mem_of_mem_take h)

theorem dropWhile_dropWhile_self (p : Char → Bool) (l : List Char) :
    (l.dropWhile p).dropWhile p = l.dropWhile p := by
  induction l with
  | nil => rfl
  | cons c rest ih =>
    by_cases hp : p c = true
    · simpa only [List.dropWhile_cons, hp, if_true] using ih
    · simp only [List.dropWhile_cons, hp, if_false, Bool.false_eq_true]

theorem dropWhile_append_singleton {p : Char → Bool} {c : Char} (hc : p c = false)
    (a : List Char) : (a ++ [c]).dropWhile p = a.dropWhile p ++ [c] := by
  induction a with
  | nil => simp [List.dropWhile_cons, hc]
  | cons d a' ih =>
    by_cases hd : p d = true
    · simpa only [List.cons_append, List.dropWhile_cons, hd, if_true] using ih
    · simp only [List.cons_append, List.dropWhile_cons, hd, if_false, Bool.false_eq_true]

theorem dropWhile_head_false {p : Char → Bool} : ∀ {l : List Char} {c : Char} {v : List Char},
    l.dropWhile p = c :: v → p c = false := by
  intro l
  induction l with
  | nil => intro c v h; simp [List.dropWhile] at h
  | cons d rest ih =>
    intro c v h
    by_cases hd : p d = true
    · simp only [List.dropWhile_cons, hd, if_true] at h
      exact ih h
    · simp only [List.dropWhile_cons, hd, if_false, Bool.false_eq_true,
        List.cons.injEq] at h
      rw [Bool.not_eq_true] at hd
      rw [← h.1]
      exact hd

theorem trimLeftJs_trimJs (l : List Char) : trimLeftJs (trimJs l) = trimJs l := by
  rw [trimJs]
  cases hu : trimLeftJs l with
  | nil => rfl
  | cons c v =>
    have hc : isJsWS c = false := dropWhile_head_false hu
    rw [trimRightJs, List.reverse_cons, dropWhile_append_singleton hc,
      List.reverse_append]
    simp only [trimLeftJs, List.reverse_cons, List.reverse_nil, List.nil_append,
      List.singleton_append, List.dropWhile_cons, hc, if_false, Bool.false_eq_true]

theorem trimRightJs_idem (l : List Char) : trimRightJs (trimRightJs l) = trimRightJs l := by
  rw [trimRightJs, trimRightJs, List.reverse_reverse, dropWhile_dropWhile_self]

theorem trimJs_idem (l : List Char) : trimJs (trimJs l) = trimJs l := by
  conv_lhs => rw [trimJs, trimLeftJs_trimJs]
  rw [trimJs, trimRightJs_idem]

theorem nlOK_triple_false (k : Nat) (t : List Char) :
    nlOK k ('\n' :: '\n' :: '\n' :: t) = false := by
  simp only [nlOK, if_true, Bool.and_eq_false_iff, decide_eq_false_iff_not, Nat.not_lt]
  omega

theorem nlOK_no_triple : ∀ (l : List Char) (k : Nat),
    nlOK k l = true → hasTripleNL l = false := by
  intro l
  induction l with
  | nil => intro k _; rfl
  | cons c rest ih =>
    intro k h
    have hr : hasTripleNL rest = false := ih 0 (nlOK_tail h)
    rw [hasTripleNL, hr, Bool.or_false]
    by_cases hc : c = '\n'
    · by_cases ht : twoNL rest = true
      · exfalso
        cases rest with
        | nil => simp [twoNL] at ht
        | cons c2 r2 =>
          cases r2 with
          | nil => simp [twoNL] at ht
          | cons c3 t =>
            simp only [twoNL, Bool.and_eq_true, decide_eq_true_eq] at ht
            rw [hc, ht.1, ht.2, nlOK_triple_false] at h
            exact Bool.false_ne_true h
      · rw [Bool.not_eq_true] at ht
        rw [ht, Bool.and_false]
    · simp [hc]

theorem nlOK_cleanContentL (l : List Char) : nlOK 0 (cleanContentL l) = true := by
  rw [cleanContentL]
  exact nlOK_trimJs (by simpa using nlOK_collapseNLA (collapseHWS (removeTags l)) 0)

theorem cleanContentL_idem_of_no_lt {x : List Char} (hx : '<' ∉ x) :
    cleanContentL (cleanContentL x) = cleanContentL x := by
  have h1 : removeTags x = x := removeTags_id_of_no_lt hx
  have hyx : cleanContentL x = trimJs (collapseNL (collapseHWS x)) := by
    rw [cleanContentL, h1]
  have hylt : '<' ∉ cleanContentL x := by
    intro hm
    rw [hyx] at hm
    rcases mem_collapseHWSA (mem_collapseNLA (mem_trimJs hm)) with hmx | habs
    · exact hx hmx
    · exact absurd habs (by decide)
  have hws : hwsOK false (cleanContentL x) = true := by
    rw [hyx, collapseNL]
    exact hwsOK_trimJs
      (collapseNLA_hwsOK (collapseHWS x) 0 false (fun hk => absurd hk (by omega))
        (hwsOK_collapseHWSA x false))
  have hnl : nlOK 0 (cleanContentL x) = true := nlOK_cleanContentL x
  rw [cleanContentL, removeTags_id_of_no_lt hylt, collapseHWS,
    collapseHWSA_id _ false hws, collapseNL, collapseNLA_id _ 0 hnl, hyx, trimJs_idem, ← hyx]

/-- C2 (counterexample): `normalize` (= `cleanContent`, scanner.ts 492-500) is
not idempotent.  Stripping the inner well-formed `<task_id>...</task_id>`
element from the input exposes a new well-formed `<task_id>` element, which
only a second pass strips: the first pass returns `"<task_id>abc</task_id>"`,
the second returns `""`. -/
theorem claim_c2_counterexample :
    cleanContent "<task_<task_id></task_id>id>abc</task_id>" = "<task_id>abc</task_id>" ∧
    cleanContent (cleanContent "<task_<task_id></task_id>id>abc</task_id>") = "" ∧
    (cleanContent (cleanContent "<task_<task_id></task_id>id>abc</task_id>") ==
      cleanContent "<task_<task_id></task_id>id>abc</task_id>") = false := by
  decide

/-- C2 (amended): `normalize` (= `cleanContent`) is idempotent on every input
that contains no `<` character (in particular on all control-tag-free text);
on inputs where stripping a control tag exposes a new well-formed control-tag
pair, a second application can strip further (see the counterexample). -/
theorem claim_c2_amended (s : String) (h : '<' ∉ s.data) :
    cleanContent (cleanContent s) = cleanContent s := by
  show String.mk (cleanContentL (cleanContentL s.data)) = String.mk (cleanContentL s.data)
  exact congrArg String.mk (cleanContentL_idem_of_no_lt h)

theorem claim_c2_amended_witness :
    '<' ∉ ("a \t b\n\n\n\n cd " : String).data ∧
    cleanContent (cleanContent "a \t b\n\n\n\n cd ") = cleanContent "a \t b\n\n\n\n cd " :=
  ⟨by decide, claim_c2_amended "a \t b\n\n\n\n cd " (by decide)⟩

/-- C4: `normalize` (= `cleanContent`) collapses newline runs so that its
output never contains three consecutive newline characters — i.e. never more
than one consecutive blank line. -/
theorem claim_c4_no_triple_newline (s : String) :
    hasTripleNL (cleanContent s).data = false :=
  nlOK_no_triple _ 0 (nlOK_cleanContentL s.data)

/-- C1 (counterexample): a payload with both `stdout` and `stderr` keys is
NOT always classified `bash`: when it also satisfies the higher-priority
`edit` predicate (truthy `structuredPatch`, present `oldString`, truthy
`filePath`), `classifyToolResult` returns an `edit` result. -/
theorem claim_c1_counterexample :
    ((classifyToolResult bashEditRaw .null []).map toolResultType) = some "edit" ∧
    (((classifyToolResult bashEditRaw .null []).map toolResultType) == some "bash") = false := by
  decide

/-- C1 (amended): for every object payload with both `stdout` and `stderr`
keys that does not satisfy any of the three higher-priority predicates
(`edit`, `write`, `read`), `classifyToolResult` returns the `bash` variant —
even when the payload also structurally matches a lower-priority predicate
(`grep`, `glob`, `taskAgent`, `taskCreate`, `taskUpdate`, `message`-only). -/
theorem claim_c1_amended (raw messageContent : JValue)
    (pendingToolUses : List (String × ToolUseBlock))
    (hobj : isJsObject raw = true) (hbash : bashPred raw = true)
    (hedit : editPred raw = false) (hwrite : writePred raw = false)
    (hread : readPred raw = false) :
    classifyToolResult raw messageContent pendingToolUses =
      some (.bash (getField raw "stdout") (getField raw "stderr")
        (fieldOr raw "interrupted" (.bool false))) := by
  simp [classifyToolResult, hobj, classifyBody, hedit, hwrite, hread, hbash]

theorem claim_c1_amended_witness :
    isJsObject bashGrepRaw = true ∧ bashPred bashGrepRaw = true ∧
    grepPred bashGrepRaw = true ∧
    ((classifyToolResult bashGrepRaw .null []).map toolResultType) = some "bash" := by
  refine ⟨by decide, by decide, by decide, ?_⟩
  have h := claim_c1_amended bashGrepRaw .null [] (by decide) (by decide) (by decide)
    (by decide) (by decide)
  rw [h]
  rfl

/-- C9: `classifyToolResult` returns `null` if and only if `raw` is not an
object (in the JS sense of the guard: a truthy value of typeof `object`,
which includes arrays and excludes `null` and primitives); and every object
that satisfies none of the specific structural predicates degrades to the
`generic` variant, never an error or `null`. -/
theorem claim_c9_null_iff_not_object (raw messageContent : JValue)
    (pendingToolUses : List (String × ToolUseBlock)) :
    (classifyToolResult raw messageContent pendingToolUses).isNone = !(isJsObject raw) ∧
    (isJsObject raw = true → editPred raw = false → writePred raw = false →
      readPred raw = false → bashPred raw = false → grepPred raw = false →
      globPred raw = false → taskAgentPred raw = false → taskCreatePred raw = false →
      taskUpdatePred raw = false →
      classifyToolResult raw messageContent pendingToolUses =
        some (.generic (resolveToolName messageContent pendingToolUses) raw)) := by
  constructor
  · by_cases h : isJsObject raw = true
    · simp [classifyToolResult, h]
    · rw [Bool.not_eq_true] at h
      simp [classifyToolResult, h]
  · intro hobj hedit hwrite hread hbash hgrep hglob hagent hcreate hupdate
    by_cases hmsg : messageOnlyPred raw = true
    · simp [classifyToolResult, hobj, classifyBody, hedit, hwrite, hread, hbash, hgrep,
        hglob, hagent, hcreate, hupdate, hmsg]
    · rw [Bool.not_eq_true] at hmsg
      simp [classifyToolResult, hobj, classifyBody, hedit, hwrite, hread, hbash, hgrep,
        hglob, hagent, hcreate, hupdate, hmsg]

/-! ### Lexicographic-order facts for the running-maximum timestamp -/

theorem lexLtNat_nil_right (u : List Nat) : lexLtNat u [] = false := by
  cases u <;> rfl

theorem lexLtNat_irrefl : ∀ u : List Nat, lexLtNat u u = false := by
  intro u
  induction u with
  | nil => rfl
  | cons a as ih => simp [lexLtNat, ih]

theorem lexLtNat_trans : ∀ u v w : List Nat,
    lexLtNat u v = true → lexLtNat v w = true → lexLtNat u w = true := by
  intro u
  induction u with
  | nil =>
    intro v w huv hvw
    cases w with
    | nil =>
      cases v with
      | nil => exact huv
      | cons b bs => simp [lexLtNat] at hvw
    | cons c cs => rfl
  | cons a as ih =>
    intro v w huv hvw
    cases v with
    | nil => simp [lexLtNat] at huv
    | cons b bs =>
      cases w with
      | nil => simp [lexLtNat] at hvw
      | cons c cs =>
        simp only [lexLtNat, Bool.or_eq_true, Bool.and_eq_true, decide_eq_true_eq] at huv hvw ⊢
        rcases huv with hab | ⟨hab, hlt⟩
        · rcases hvw with hbc | ⟨hbc, _⟩
          · exact Or.inl (by omega)
          · exact Or.inl (by omega)
        · rcases hvw with hbc | ⟨hbc, hlt'⟩
          · exact Or.inl (by omega)
          · exact Or.inr ⟨by omega, ih bs cs hlt hlt'⟩

theorem utf16Units_ne_nil (c : Char) : utf16Units c ≠ [] := by
  rw [utf16Units]
  split <;> simp

theorem jsStrLt_irrefl (s : String) : jsStrLt s s = false := lexLtNat_irrefl _

theorem jsStrLt_empty_right (s : String) : jsStrLt s "" = false := by
  rw [jsStrLt]
  exact lexLtNat_nil_right _

theorem jsStrLt_trans {s t u : String} (h1 : jsStrLt s t = true) (h2 : jsStrLt t u = true) :
    jsStrLt s u = true := lexLtNat_trans _ _ _ h1 h2

theorem eq_empty_of_jsStrLt_empty_left {t : String} (h : jsStrLt "" t = false) : t = "" := by
  rw [jsStrLt] at h
  cases t with
  | mk data =>
    cases data with
    | nil => rfl
    | cons c cs =>
      exfalso
      have h2 : lexLtNat [] (utf16Units c ++ cs.flatMap utf16Units) = false := h
      cases hu : utf16Units c with
      | nil => exact utf16Units_ne_nil c hu
      | cons a as => rw [hu] at h2; simp [lexLtNat] at h2

/-! ### The running-maximum fold -/

theorem tsStep_none {e : Entry} (acc : String) (h : e.timestamp = none) :
    tsStep acc e = acc := by
  simp [tsStep, h]

theorem tsStep_some {e : Entry} {t : String} (acc : String) (h : e.timestamp = some t) :
    tsStep acc e =
      if decide (t ≠ "") && (decide (acc = "") || jsStrLt acc t) then t else acc := by
  simp only [tsStep, h]

theorem obsTs_cons_none {e : Entry} (rest : List Entry) (h : e.timestamp = none) :
    obsTs (e :: rest) = obsTs rest := by
  simp only [obsTs, List.filterMap_cons, h]

theorem obsTs_cons_empty {e : Entry} (rest : List Entry) (h : e.timestamp = some "") :
    obsTs (e :: rest) = obsTs rest := by
  simp [obsTs, List.filterMap_cons, h]

theorem obsTs_cons_some {e : Entry} {t : String} (rest : List Entry)
    (h : e.timestamp = some t) (ht : t ≠ "") :
    obsTs (e :: rest) = t :: obsTs rest := by
  simp only [obsTs, List.filterMap_cons, h, if_neg ht]

theorem tsStep_no_lt (e : Entry) {acc t : String} (h : jsStrLt acc t = false) :
    jsStrLt (tsStep acc e) t = false := by
  cases hts : e.timestamp with
  | none => rw [tsStep_none acc hts]; exact h
  | some t' =>
    rw [tsStep_some acc hts]
    by_cases hcond : (decide (t' ≠ "") && (decide (acc = "") || jsStrLt acc t')) = true
    · rw [if_pos hcond]
      simp only [Bool.and_eq_true, Bool.or_eq_true, decide_eq_true_eq] at hcond
      rcases hcond.2 with hacc | hlt
      · subst hacc
        have ht : t = "" := eq_empty_of_jsStrLt_empty_left h
        subst ht
        exact jsStrLt_empty_right t'
      · cases hlt' : jsStrLt t' t with
        | false => rfl
        | true => exact absurd (jsStrLt_trans hlt hlt') (by rw [h]; exact Bool.false_ne_true)
    · rw [if_neg hcond]
      exact h

theorem tsFold_no_lt : ∀ (es : List Entry) {acc t : String}, jsStrLt acc t = false →
    jsStrLt (es.foldl tsStep acc) t = false := by
  intro es
  induction es with
  | nil => intro acc t h; exact h
  | cons e rest ih => intro acc t h; exact ih (tsStep_no_lt e h)

theorem tsFold_dominates : ∀ (es : List Entry) (acc : String), ∀ t ∈ obsTs es,
    jsStrLt (es.foldl tsStep acc) t = false := by
  intro es
  induction es with
  | nil => intro acc t ht; simp [obsTs] at ht
  | cons e rest ih =>
    intro acc t ht
    rw [List.foldl_cons]
    cases hts : e.timestamp with
    | none => exact ih (tsStep acc e) t (by rwa [obsTs_cons_none rest hts] at ht)
    | some t' =>
      by_cases ht' : t' = ""
      · subst ht'
        exact ih (tsStep acc e) t (by rwa [obsTs_cons_empty rest hts] at ht)
      · rw [obsTs_cons_some rest hts ht'] at ht
        rcases List.mem_cons.mp ht with hEq | hmem
        · rw [hEq]
          refine tsFold_no_lt rest ?_
          rw [tsStep_some acc hts]
          by_cases hcond : (decide (t' ≠ "") && (decide (acc = "") || jsStrLt acc t')) = true
          · rw [if_pos hcond]; exact jsStrLt_irrefl t'
          · rw [if_neg hcond]
            simp only [Bool.and_eq_true, Bool.or_eq_true, decide_eq_true_eq, not_and, not_or,
              Bool.not_eq_true] at hcond
            exact (hcond ht').2
        · exact ih (tsStep acc e) t hmem

theorem tsFold_mem : ∀ (es : List Entry) (acc : String),
    es.foldl tsStep acc = acc ∨ es.foldl tsStep acc ∈ obsTs es := by
  intro es
  induction es with
  | nil => intro acc; exact Or.inl rfl
  | cons e rest ih =>
    intro acc
    rw [List.foldl_cons]
    rcases ih (tsStep acc e) with heq | hmem
    · rw [heq]
      cases hts : e.timestamp with
      | none => rw [tsStep_none acc hts]; exact Or.inl rfl
      | some t' =>
        rw [tsStep_some acc hts]
        by_cases hcond : (decide (t' ≠ "") && (decide (acc = "") || jsStrLt acc t')) = true
        · rw [if_pos hcond]
          refine Or.inr ?_
          simp only [Bool.and_eq_true, decide_eq_true_eq] at hcond
          rw [obsTs_cons_some rest hts hcond.1]
          exact List.mem_cons_self _ _
        · rw [if_neg hcond]; exact Or.inl rfl
    · refine Or.inr ?_
      cases hts : e.timestamp with
      | none => rw [obsTs_cons_none rest hts]; exact hmem
      | some t' =>
        by_cases ht' : t' = ""
        · subst ht'
          rw [obsTs_cons_empty rest hts]
          exact hmem
        · rw [obsTs_cons_some rest hts ht']
          exact List.mem_cons_of_mem _ hmem

theorem mem_obsTs {t : String} {es : List Entry} :
    t ∈ obsTs es ↔ ∃ e ∈ es, e.timestamp = some t ∧ t ≠ "" := by
  rw [obsTs, List.mem_filterMap]
  constructor
  · rintro ⟨e, hmem, hf⟩
    refine ⟨e, hmem, ?_⟩
    cases hts : e.timestamp with
    | none =>
      simp only [hts] at hf
      exact Option.noConfusion hf
    | some t' =>
      simp only [hts] at hf
      by_cases ht' : t' = ""
      · rw [if_pos ht'] at hf
        exact absurd hf (by simp)
      · rw [if_neg ht'] at hf
        obtain rfl : t' = t := by simpa using hf
        exact ⟨rfl, ht'⟩
  · rintro ⟨e, hmem, hts, hne⟩
    refine ⟨e, hmem, ?_⟩
    simp only [hts]
    rw [if_neg hne]

theorem tsFold_ne_empty {es : List Entry} (h : obsTs es ≠ []) :
    es.foldl tsStep "" ≠ "" := by
  intro heq
  obtain ⟨t, ht⟩ := List.exists_mem_of_ne_nil _ h
  have hd := tsFold_dominates es "" t ht
  rw [heq] at hd
  have := eq_empty_of_jsStrLt_empty_left hd
  obtain ⟨e, _, _, hne⟩ := mem_obsTs.mp ht
  exact hne this

/-! ### Projections of the parse loop -/

theorem processEntry_latest (st : PState) (n : Nat) (e : Entry) :
    (processEntry st n e).latestTimestamp = tsStep st.latestTimestamp e := by
  simp only [processEntry]
  split
  · split <;> rfl
  · rfl

theorem processEntry_cwd (st : PState) (n : Nat) (e : Entry) :
    (processEntry st n e).cwd =
      (if optTruthy e.cwd && decide (st.cwd = "") then e.cwd.getD "" else st.cwd) := by
  simp only [processEntry]
  split
  · split <;> rfl
  · rfl

theorem foldPairs_latest : ∀ (ps : List (Nat × JsonLine)) (st : PState),
    ((ps.foldl
      (fun st p =>
        match p.2 with
        | some e => processEntry st (p.1 + 1) e
        | none => st) st)).latestTimestamp =
      ((ps.map Prod.snd).filterMap id).foldl tsStep st.latestTimestamp := by
  intro ps
  induction ps with
  | nil => intro st; rfl
  | cons p rest ih =>
    intro st
    rcases p with ⟨n, l⟩
    cases l with
    | none =>
      rw [List.foldl_cons]
      exact ih st
    | some e =>
      rw [List.foldl_cons]
      have := ih (processEntry st (n + 1) e)
      rw [this, processEntry_latest]
      rfl

theorem foldPairs_cwd : ∀ (ps : List (Nat × JsonLine)) (st : PState),
    (∀ e ∈ (ps.map Prod.snd).filterMap id, optTruthy e.cwd = false) → st.cwd = "" →
    ((ps.foldl
      (fun st p =>
        match p.2 with
        | some e => processEntry st (p.1 + 1) e
        | none => st) st)).cwd = "" := by
  intro ps
  induction ps with
  | nil => intro st _ h0; exact h0
  | cons p rest ih =>
    intro st hall h0
    rcases p with ⟨n, l⟩
    cases l with
    | none =>
      rw [List.foldl_cons]
      exact ih st (fun e he => hall e he) h0
    | some e =>
      rw [List.foldl_cons]
      refine ih (processEntry st (n + 1) e) (fun e' he' => hall e' ?_) ?_
      · exact List.mem_cons_of_mem _ he'
      · rw [processEntry_cwd, hall e (List.mem_cons_self _ _), Bool.false_and]
        simp only [Bool.false_eq_true, if_false]
        exact h0

theorem runParse_latest (lines : List JsonLine) :
    (runParse lines).latestTimestamp = (lines.filterMap id).foldl tsStep "" := by
  rw [runParse, foldPairs_latest, List.enum_map_snd]
  rfl

theorem runParse_cwd (lines : List JsonLine)
    (h : ∀ e ∈ lines.filterMap id, optTruthy e.cwd = false) :
    (runParse lines).cwd = "" := by
  rw [runParse]
  refine foldPairs_cwd lines.enum initPState ?_ rfl
  rw [List.enum_map_snd]
  exact h

/-- Whenever `parseConversation` yields a Conversation, its `messageCount`
is the length of `messages` and is at least 1. -/
theorem parse_count_pos {filePath : String} {lines : List JsonLine}
    {fallback now : String} {conv : Conversation}
    (h : parseConversation filePath lines fallback now = some conv) :
    conv.messageCount = conv.messages.length ∧ 1 ≤ conv.messageCount := by
  cases hemp : (runParse lines).messages.isEmpty with
  | true => simp [parseConversation, hemp] at h
  | false =>
    simp only [parseConversation, hemp, Bool.false_eq_true, if_false,
      Option.some.injEq] at h
    subst h
    refine ⟨rfl, ?_⟩
    show 1 ≤ (runParse lines).messages.length
    have := List.isEmpty_eq_false.mp hemp
    exact List.length_pos.mpr this

/-- C3 (counterexample): a file whose single JSON line carries a `timestamp`
field with the (falsy) empty-string value: the parsed Conversation's
timestamp is the current-time fallback (`now`), not the lexicographic
maximum `""` of the carried timestamp strings. -/
theorem claim_c3_counterexample :
    ((parseConversation "f.jsonl" c3File "proj" "2026-01-01T00:00:00.000Z").map
      Conversation.timestamp) = some "2026-01-01T00:00:00.000Z" ∧
    (c3File.filterMap (fun l => l.bind Entry.timestamp)) = [""] ∧
    (some "2026-01-01T00:00:00.000Z" == some ("" : String)) = false := by
  decide

/-- C3 (amended): for every file with at least one JSON-parseable line
carrying a non-empty `timestamp` string, the parsed Conversation's
`timestamp` is one of the carried timestamp strings and is `≥` (in JS
string order) every timestamp string carried by any JSON-parseable line of
the file — including lines (metadata-only, isMeta, non-message) that
produced no message. -/
theorem claim_c3_amended (filePath : String) (lines : List JsonLine) (fallback now : String)
    (hsome : (parseConversation filePath lines fallback now).isSome = true)
    (hex : ∃ e ∈ lines.filterMap id, ∃ t, e.timestamp = some t ∧ t ≠ "") :
    ∃ t, (parseConversation filePath lines fallback now).map Conversation.timestamp = some t ∧
      (∃ e ∈ lines.filterMap id, e.timestamp = some t) ∧
      ∀ e ∈ lines.filterMap id, ∀ t', e.timestamp = some t' → jsStrLt t t' = false := by
  have hobs : obsTs (lines.filterMap id) ≠ [] := by
    obtain ⟨e, hmem, t, hts, hne⟩ := hex
    intro hnil
    have hmem2 : t ∈ obsTs (lines.filterMap id) := mem_obsTs.mpr ⟨e, hmem, hts, hne⟩
    rw [hnil] at hmem2
    exact absurd hmem2 (List.not_mem_nil t)
  have hne : (lines.filterMap id).foldl tsStep "" ≠ "" := tsFold_ne_empty hobs
  refine ⟨(lines.filterMap id).foldl tsStep "", ?_, ?_, ?_⟩
  · cases hemp : (runParse lines).messages.isEmpty with
    | true => simp [parseConversation, hemp] at hsome
    | false =>
      simp only [parseConversation, hemp, Bool.false_eq_true, if_false, Option.map_some']
      rw [runParse_latest lines, if_pos hne]
  · rcases tsFold_mem (lines.filterMap id) "" with heq | hmem
    · exact absurd heq hne
    · obtain ⟨e, hm, hts, _⟩ := mem_obsTs.mp hmem
      exact ⟨e, hm, hts⟩
  · intro e hm t' hts
    by_cases ht' : t' = ""
    · rw [ht']
      exact jsStrLt_empty_right _
    · exact tsFold_dominates (lines.filterMap id) "" t' (mem_obsTs.mpr ⟨e, hm, hts, ht'⟩)

theorem claim_c3_amended_witness :
    ∃ t, (parseConversation "w.jsonl" c3WitFile "p" "now0").map Conversation.timestamp = some t ∧
      (∃ e ∈ c3WitFile.filterMap id, e.timestamp = some t) ∧
      ∀ e ∈ c3WitFile.filterMap id, ∀ t', e.timestamp = some t' → jsStrLt t t' = false :=
  claim_c3_amended "w.jsonl" c3WitFile "p" "now0" (by decide)
    ⟨c3e1, List.mem_cons_self _ _, "2024-01-01T00:00:00Z", rfl, by decide⟩

theorem mem_insertByDesc {α : Type} {key : α → Int} {c x : α} :
    ∀ {l : List α}, x ∈ insertByDesc key c l → x = c ∨ x ∈ l := by
  intro l
  induction l with
  | nil =>
    intro h
    rw [insertByDesc] at h
    rcases List.mem_cons.mp h with h1 | h1
    · exact Or.inl h1
    · exact absurd h1 (List.not_mem_nil x)
  | cons d rest ih =>
    intro h
    rw [insertByDesc] at h
    by_cases hk : key c ≤ key d
    · rw [if_pos hk] at h
      rcases List.mem_cons.mp h with h1 | h1
      · exact Or.inr (h1 ▸ List.mem_cons_self d rest)
      · rcases ih h1 with h2 | h2
        · exact Or.inl h2
        · exact Or.inr (List.mem_cons_of_mem _ h2)
    · rw [if_neg hk] at h
      rcases List.mem_cons.mp h with h1 | h1
      · exact Or.inl h1
      · exact Or.inr h1

theorem mem_sortFold {α : Type} {key : α → Int} {x : α} :
    ∀ (l acc : List α),
    x ∈ l.foldl (fun acc c => insertByDesc key c acc) acc →
    x ∈ acc ∨ x ∈ l := by
  intro l
  induction l with
  | nil => intro acc h; exact Or.inl h
  | cons c rest ih =>
    intro acc h
    rw [List.foldl_cons] at h
    rcases ih (insertByDesc key c acc) h with h1 | h1
    · rcases mem_insertByDesc h1 with h2 | h2
      · exact Or.inr (h2 ▸ List.mem_cons_self c rest)
      · exact Or.inl h2
    · exact Or.inr (List.mem_cons_of_mem _ h1)

theorem mem_sortByTimestampDesc {dv : String → Int} {l : List Conversation}
    {x : Conversation} (h : x ∈ sortByTimestampDesc dv l) : x ∈ l := by
  rcases mem_sortFold l [] h with h1 | h1
  · exact absurd h1 (List.not_mem_nil x)
  · exact h1

theorem scanFold_count : ∀ (files : List JFile) (acc : List Conversation)
    (now : String) (x : Conversation),
    (∀ c ∈ acc, c.messageCount = c.messages.length ∧ 1 ≤ c.messageCount) →
    x ∈ files.foldl
      (fun acc f =>
        if f.size = 0 then acc
        else
          match parseConversation f.path f.lines (decodeProjectName f.projectDir) now with
          | some conv => if 0 < conv.messages.length then acc ++ [conv] else acc
          | none => acc)
      acc →
    x.messageCount = x.messages.length ∧ 1 ≤ x.messageCount := by
  intro files
  induction files with
  | nil => intro acc now x hacc h; exact hacc x h
  | cons f rest ih =>
    intro acc now x hacc h
    rw [List.foldl_cons] at h
    refine ih _ now x ?_ h
    intro c hc
    by_cases hz : f.size = 0
    · rw [if_pos hz] at hc
      exact hacc c hc
    · rw [if_neg hz] at hc
      cases hp : parseConversation f.path f.lines (decodeProjectName f.projectDir) now with
      | none => simp only [hp] at hc; exact hacc c hc
      | some conv =>
        simp only [hp] at hc
        by_cases hlen : 0 < conv.messages.length
        · rw [if_pos hlen] at hc
          rcases List.mem_append.mp hc with h1 | h1
          · exact hacc c h1
          · rcases List.mem_cons.mp h1 with h2 | h2
            · exact h2 ▸ parse_count_pos hp
            · exact absurd h2 (List.not_mem_nil c)
        · rw [if_neg hlen] at hc
          exact hacc c hc

/-- C8: a Conversation is materialized only with a non-empty message list:
`parseConversation` returns `null` exactly when the file yields zero
eligible messages; every Conversation it returns satisfies
`messageCount = messages.length ≥ 1`; and every Conversation `scanAll`
returns (files with zero eligible messages having been dropped) satisfies
the same. -/
theorem claim_c8_nonempty_invariant (filePath : String) (lines : List JsonLine)
    (fallback now : String) :
    (parseConversation filePath lines fallback now = none ↔ (runParse lines).messages = []) ∧
    (∀ conv, parseConversation filePath lines fallback now = some conv →
      conv.messageCount = conv.messages.length ∧ 1 ≤ conv.messageCount) ∧
    (∀ (dateVal : String → Int) (files : List JFile) (conv : Conversation),
      conv ∈ scanAllModel dateVal now files →
      conv.messageCount = conv.messages.length ∧ 1 ≤ conv.messageCount) := by
  refine ⟨?_, ?_, ?_⟩
  · cases hemp : (runParse lines).messages.isEmpty with
    | true =>
      simp only [parseConversation, hemp, if_true]
      exact ⟨fun _ => List.isEmpty_iff.mp hemp, fun _ => trivial⟩
    | false =>
      simp only [parseConversation, hemp, Bool.false_eq_true, if_false]
      constructor
      · intro h
        exact absurd h (by simp)
      · intro h
        exact absurd h (List.isEmpty_eq_false.mp hemp)
  · intro conv h
    exact parse_count_pos h
  · intro dateVal files conv h
    exact scanFold_count files [] now conv (fun c hc => absurd hc (List.not_mem_nil c))
      (mem_sortByTimestampDesc h)

theorem claim_c8_nonempty_invariant_witness :
    ((parseConversation "w.jsonl" c3WitFile "p" "now0").map Conversation.messageCount) =
      some 1 ∧
    parseConversation "w.jsonl" ([] : List JsonLine) "p" "now0" = none := by
  refine ⟨?_, ?_⟩
  · decide
  · exact (claim_c8_nonempty_invariant "w.jsonl" [] "p" "now0").1.mpr rfl

/-- C10: when no parsed line carries a truthy `cwd`, the Conversation's
`projectPath` is the fallback decoded from the project-directory name; the
decoding turns the leading `-` and every remaining `-` into `/` (i.e. maps
every `-` to `/`); and it is not injective on original working-directory
paths: two distinct paths can encode and then decode to the same
`projectPath`. -/
theorem claim_c10_decode (dir filePath : String) (lines : List JsonLine) (now : String)
    (hnocwd : ∀ e ∈ lines.filterMap id, optTruthy e.cwd = false)
    (hsome : (parseConversation filePath lines (decodeProjectName dir) now).isSome = true) :
    (parseConversation filePath lines (decodeProjectName dir) now).map
      Conversation.projectPath = some (decodeProjectName dir) ∧
    decodeProjectName dir = ⟨dir.data.map fun c => if c = '-' then '/' else c⟩ ∧
    ∃ p1 p2 : String, p1 ≠ p2 ∧
      decodeProjectName (encodePath p1) = decodeProjectName (encodePath p2) := by
  refine ⟨?_, ?_, "/a-b", "/a/b", by decide, by decide⟩
  · have hcwd : (runParse lines).cwd = "" := runParse_cwd lines hnocwd
    cases hemp : (runParse lines).messages.isEmpty with
    | true => simp [parseConversation, hemp] at hsome
    | false =>
      simp only [parseConversation, hemp, Bool.false_eq_true, if_false, Option.map_some']
      rw [hcwd]
      simp
  · simp only [decodeProjectName]
    split
    · rename_i x rest heq
      rw [heq]
      rfl
    · rfl

theorem claim_c10_decode_witness :
    (parseConversation "w.jsonl" c3WitFile (decodeProjectName "-Users-me-dev") "now0").map
      Conversation.projectPath = some (decodeProjectName "-Users-me-dev") ∧
    decodeProjectName "-Users-me-dev" =
      ⟨"-Users-me-dev".data.map fun c => if c = '-' then '/' else c⟩ ∧
    ∃ p1 p2 : String, p1 ≠ p2 ∧
      decodeProjectName (encodePath p1) = decodeProjectName (encodePath p2) :=
  claim_c10_decode "-Users-me-dev" "w.jsonl" c3WitFile "now0" (by decide) (by decide)

/-! ### The indexer's document map -/

theorem lookup_mem {β : Type} {k : String} {v : β} :
    ∀ {l : List (String × β)}, l.lookup k = some v → (k, v) ∈ l := by
  intro l
  induction l with
  | nil => intro h; simp [List.lookup] at h
  | cons p rest ih =>
    rcases p with ⟨k', v'⟩
    intro h
    simp only [List.lookup] at h
    cases hk : (k == k') with
    | true =>
      simp only [hk] at h
      obtain rfl : v' = v := by simpa using h
      have : k = k' := by simpa using hk
      rw [this]
      exact List.mem_cons_self _ _
    | false =>
      simp only [hk] at h
      exact List.mem_cons_of_mem _ (ih h)

theorem mem_assocSet {β : Type} {p : String × β} {k : String} {v : β} :
    ∀ {m : List (String × β)}, p ∈ assocSet m k v → p = (k, v) ∨ p ∈ m := by
  intro m
  induction m with
  | nil =>
    intro h
    rw [assocSet] at h
    rcases List.mem_cons.mp h with h1 | h1
    · exact Or.inl h1
    · exact absurd h1 (List.not_mem_nil p)
  | cons q rest ih =>
    rcases q with ⟨k', v'⟩
    intro h
    rw [assocSet] at h
    by_cases hk : k' = k
    · rw [if_pos hk] at h
      rcases List.mem_cons.mp h with h1 | h1
      · exact Or.inl h1
      · exact Or.inr (List.mem_cons_of_mem _ h1)
    · rw [if_neg hk] at h
      rcases List.mem_cons.mp h with h1 | h1
      · exact Or.inr (h1 ▸ List.mem_cons_self _ _)
      · rcases ih h1 with h2 | h2
        · exact Or.inl h2
        · exact Or.inr (List.mem_cons_of_mem _ h2)

theorem mem_keys_assocSet {β : Type} {x k : String} {v : β} :
    ∀ {m : List (String × β)},
    (x ∈ (assocSet m k v).map Prod.fst) ↔ x ∈ m.map Prod.fst ∨ x = k := by
  intro m
  induction m with
  | nil => simp [assocSet]
  | cons q rest ih =>
    rcases q with ⟨k', v'⟩
    by_cases hk : k' = k
    · subst hk
      rw [assocSet, if_pos rfl]
      simp only [List.map_cons, List.mem_cons]
      tauto
    · rw [assocSet, if_neg hk]
      simp only [List.map_cons, List.mem_cons, ih]
      tauto

theorem nodup_keys_assocSet {β : Type} {k : String} {v : β} :
    ∀ {m : List (String × β)}, (m.map Prod.fst).Nodup →
    ((assocSet m k v).map Prod.fst).Nodup := by
  intro m
  induction m with
  | nil => intro _; simp [assocSet]
  | cons q rest ih =>
    rcases q with ⟨k', v'⟩
    intro h
    simp only [List.map_cons, List.nodup_cons] at h
    by_cases hk : k' = k
    · subst hk
      rw [assocSet, if_pos rfl]
      simp only [List.map_cons, List.nodup_cons]
      exact h
    · rw [assocSet, if_neg hk]
      simp only [List.map_cons, List.nodup_cons]
      refine ⟨?_, ih h.2⟩
      rw [mem_keys_assocSet]
      rintro (h1 | h1)
      · exact h.1 h1
      · exact hk h1

theorem mem_keys_buildDocs {x : String} :
    ∀ (cs : List Conversation) (m : List (String × IndexedDocument)),
    (x ∈ (buildDocs m cs).map Prod.fst) ↔
      x ∈ m.map Prod.fst ∨ x ∈ cs.map Conversation.id := by
  intro cs
  induction cs with
  | nil => intro m; simp [buildDocs]
  | cons c rest ih =>
    intro m
    show (x ∈ (buildDocs (assocSet m c.id (docOfConv c)) rest).map Prod.fst) ↔ _
    rw [ih, mem_keys_assocSet]
    simp only [List.map_cons, List.mem_cons]
    tauto

theorem nodup_keys_buildDocs :
    ∀ (cs : List Conversation) (m : List (String × IndexedDocument)),
    (m.map Prod.fst).Nodup → ((buildDocs m cs).map Prod.fst).Nodup := by
  intro cs
  induction cs with
  | nil => intro m h; exact h
  | cons c rest ih =>
    intro m h
    exact ih _ (nodup_keys_assocSet h)

theorem buildDocs_value_ids (S : List String) :
    ∀ (cs : List Conversation) (m : List (String × IndexedDocument)),
    (∀ p ∈ m, (Prod.snd p).id ∈ S) → (∀ c ∈ cs, c.id ∈ S) →
    ∀ p ∈ buildDocs m cs, (Prod.snd p).id ∈ S := by
  intro cs
  induction cs with
  | nil => intro m hm _ p hp; exact hm p hp
  | cons c rest ih =>
    intro m hm hc p hp
    refine ih (assocSet m c.id (docOfConv c)) ?_ (fun c' h' => hc c' (List.mem_cons_of_mem _ h')) p hp
    intro q hq
    rcases mem_assocSet hq with h1 | h1
    · rw [h1]
      exact hc c (List.mem_cons_self _ _)
    · exact hm q h1

theorem searchCollect_ids {st : IndexerState} {query : String} {limit : Nat}
    {pf : Option String} {r : SearchResult} :
    ∀ (ids seen : List String) (acc : List SearchResult),
    r ∈ searchCollect st query limit pf ids seen acc →
    r ∈ acc ∨ ∃ k d, st.documents.lookup k = some d ∧ r.id = d.id := by
  intro ids
  induction ids with
  | nil => intro seen acc h; exact Or.inl h
  | cons id rest ih =>
    intro seen acc h
    rw [searchCollect] at h
    by_cases hseen : seen.contains id = true
    · rw [if_pos hseen] at h
      exact ih _ _ h
    · rw [if_neg hseen] at h
      cases hlk : st.documents.lookup id with
      | none =>
        simp only [hlk] at h
        exact ih _ _ h
      | some doc =>
        simp only [hlk] at h
        by_cases hf : (optTruthy pf && !(strIncludes doc.projectName (pf.getD ""))) = true
        · rw [if_pos hf] at h
          exact ih _ _ h
        · rw [if_neg hf] at h
          by_cases hlim : limit ≤ (acc ++
              [(⟨doc.id, doc.projectName, generatePreview doc.content query, doc.timestamp,
                doc.messageCount, 1⟩ : SearchResult)]).length
          · rw [if_pos hlim] at h
            rcases List.mem_append.mp h with h1 | h1
            · exact Or.inl h1
            · rcases List.mem_cons.mp h1 with h2 | h2
              · exact Or.inr ⟨id, doc, hlk, by rw [h2]⟩
              · exact absurd h2 (List.not_mem_nil r)
          · rw [if_neg hlim] at h
            rcases ih _ _ h with h1 | h1
            · rcases List.mem_append.mp h1 with h2 | h2
              · exact Or.inl h2
              · rcases List.mem_cons.mp h2 with h3 | h3
                · exact Or.inr ⟨id, doc, hlk, by rw [h3]⟩
                · exact absurd h3 (List.not_mem_nil r)
            · exact Or.inr h1

theorem getRecent_src {dv : String → Int} {st : IndexerState} {limit : Nat}
    {pf : Option String} {r : SearchResult}
    (h : r ∈ IndexerState.getRecent dv st limit pf) :
    ∃ d ∈ st.documents.map Prod.snd, r.id = d.id ∧ r.timestamp = d.timestamp ∧
      (optTruthy pf = true → strIncludes d.projectName (pf.getD "") = true) := by
  simp only [IndexerState.getRecent] at h
  obtain ⟨doc, hdoc, hr⟩ := List.mem_map.mp h
  have hdoc2 := List.mem_of_mem_take hdoc
  have hdoc3 := mem_sortFold _ _ hdoc2
  rcases hdoc3 with h3 | h3
  · exact absurd h3 (List.not_mem_nil doc)
  · by_cases hpf : optTruthy pf = true
    · rw [if_pos hpf] at h3
      obtain ⟨hmem, hcond⟩ := List.mem_filter.mp h3
      exact ⟨doc, hmem, by rw [← hr], by rw [← hr], fun _ => hcond⟩
    · rw [if_neg hpf] at h3
      exact ⟨doc, h3, by rw [← hr], by rw [← hr], fun hp => absurd hp hpf⟩

/-- C5: `buildIndex` replaces the prior document store wholesale: after
`buildIndex L1` then `buildIndex L2`, `getDocumentCount` is the number of
distinct conversation ids of `L2`, and every result of any subsequent
`search` — blank or non-blank query, for anything the FlexSearch engine
returns (which still remembers `L1`'s documents: the engine index is never
cleared, but stale ids fail the `documents.get` lookup and are skipped) —
carries an id drawn from `L2`. -/
theorem claim_c5_wholesale (L1 L2 : List Conversation) (dateVal : String → Int)
    (oracle : List (List String)) (query : String) (limit : Nat) (pf : Option String) :
    ((emptyIndexer.buildIndex L1).buildIndex L2).getDocumentCount =
      (L2.map Conversation.id).toFinset.card ∧
    ∀ r ∈ IndexerState.search dateVal ((emptyIndexer.buildIndex L1).buildIndex L2)
        oracle query limit pf, r.id ∈ L2.map Conversation.id := by
  constructor
  · show (buildDocs [] L2).length = _
    have hnd : ((buildDocs [] L2).map Prod.fst).Nodup :=
      nodup_keys_buildDocs L2 [] (by simp)
    rw [show (buildDocs [] L2).length = ((buildDocs [] L2).map Prod.fst).length from
      (List.length_map _ _).symm]
    rw [← List.toFinset_card_of_nodup hnd]
    congr 1
    apply Finset.ext
    intro x
    simp only [List.mem_toFinset]
    rw [mem_keys_buildDocs]
    simp
  · intro r hr
    have hval : ∀ p ∈ ((emptyIndexer.buildIndex L1).buildIndex L2).documents,
        (Prod.snd p).id ∈ L2.map Conversation.id := by
      refine buildDocs_value_ids _ L2 [] ?_ (fun c hc => List.mem_map_of_mem _ hc)
      intro p hp
      exact absurd hp (List.not_mem_nil p)
    rw [IndexerState.search] at hr
    by_cases hblank : (trimJs query.data).isEmpty = true
    · rw [if_pos hblank] at hr
      obtain ⟨d, hd, hid, _, _⟩ := getRecent_src hr
      obtain ⟨p, hp, hpd⟩ := List.mem_map.mp hd
      rw [hid, ← hpd]
      exact hval p hp
    · rw [if_neg hblank] at hr
      rcases searchCollect_ids _ _ _ hr with hacc | ⟨k, d, hlk, hid⟩
      · exact absurd hacc (List.not_mem_nil r)
      · rw [hid]
        exact hval (k, d) (lookup_mem hlk)

/-! ### Sortedness of `getRecent` -/

theorem sortedDescB_cons {α : Type} {key : α → Int} {a : α} {l : List α} :
    sortedDescB key (a :: l) = true ↔
      (∀ b ∈ l.head?, key b ≤ key a) ∧ sortedDescB key l = true := by
  cases l with
  | nil => simp [sortedDescB]
  | cons b rest =>
    constructor
    · intro h
      simp only [sortedDescB, Bool.and_eq_true, decide_eq_true_eq] at h
      refine ⟨?_, h.2⟩
      intro b' hb'
      have : b = b' := by simpa using hb'
      rw [← this]
      exact h.1
    · rintro ⟨h1, h2⟩
      simp only [sortedDescB, Bool.and_eq_true, decide_eq_true_eq]
      exact ⟨h1 b rfl, h2⟩

theorem insertByDesc_head {α : Type} {key : α → Int} {c : α} :
    ∀ (l : List α), (insertByDesc key c l).head? = some c ∨
      (insertByDesc key c l).head? = l.head? := by
  intro l
  cases l with
  | nil => exact Or.inl rfl
  | cons d rest =>
    rw [insertByDesc]
    by_cases hk : key c ≤ key d
    · rw [if_pos hk]
      exact Or.inr rfl
    · rw [if_neg hk]
      exact Or.inl rfl

theorem sortedDescB_insertByDesc {α : Type} {key : α → Int} {c : α} :
    ∀ {l : List α}, sortedDescB key l = true →
    sortedDescB key (insertByDesc key c l) = true := by
  intro l
  induction l with
  | nil => intro _; rfl
  | cons d rest ih =>
    intro h
    rw [sortedDescB_cons] at h
    obtain ⟨hhead, htail⟩ := h
    rw [insertByDesc]
    by_cases hk : key c ≤ key d
    · rw [if_pos hk, sortedDescB_cons]
      refine ⟨?_, ih htail⟩
      intro b hb
      rcases @insertByDesc_head _ key c rest with h1 | h1
      · rw [show b ∈ (insertByDesc key c rest).head? ↔
          (insertByDesc key c rest).head? = some b from Iff.rfl, h1] at hb
        obtain rfl : c = b := by simpa using hb
        exact hk
      · rw [show b ∈ (insertByDesc key c rest).head? ↔
          (insertByDesc key c rest).head? = some b from Iff.rfl, h1] at hb
        exact hhead b hb
    · rw [if_neg hk, sortedDescB_cons]
      constructor
      · intro b hb
        obtain rfl : d = b := by simpa using hb
        omega
      · rw [sortedDescB_cons]
        exact ⟨hhead, htail⟩

theorem sortedDescB_sortFold {α : Type} {key : α → Int} :
    ∀ (l acc : List α), sortedDescB key acc = true →
    sortedDescB key (l.foldl (fun acc c => insertByDesc key c acc) acc) = true := by
  intro l
  induction l with
  | nil => intro acc h; exact h
  | cons c rest ih =>
    intro acc h
    rw [List.foldl_cons]
    exact ih _ (sortedDescB_insertByDesc h)

theorem sortedDescB_take {α : Type} {key : α → Int} :
    ∀ (l : List α) (n : Nat), sortedDescB key l = true →
    sortedDescB key (l.take n) = true := by
  intro l
  induction l with
  | nil => intro n _; rw [List.take_nil]; rfl
  | cons a rest ih =>
    intro n h
    cases n with
    | zero => rfl
    | succ n =>
      rw [List.take_succ_cons, sortedDescB_cons]
      rw [sortedDescB_cons] at h
      refine ⟨?_, ih n h.2⟩
      intro b hb
      cases n with
      | zero => exact absurd hb (by simp)
      | succ m =>
        cases rest with
        | nil => exact absurd hb (by simp)
        | cons r rrest =>
          rw [List.take_succ_cons] at hb
          exact h.1 b hb

theorem sortedDescB_map {α β : Type} {key : β → Int} (f : α → β) :
    ∀ (l : List α), sortedDescB (fun a => key (f a)) l = true →
    sortedDescB key (l.map f) = true := by
  intro l
  induction l with
  | nil => intro _; rfl
  | cons a rest ih =>
    intro h
    rw [List.map_cons, sortedDescB_cons]
    rw [sortedDescB_cons] at h
    refine ⟨?_, ih h.2⟩
    intro b hb
    cases rest with
    | nil => exact absurd hb (by simp)
    | cons r rrest =>
      rw [List.map_cons] at hb
      have hfr : f r = b := by simpa using hb
      rw [← hfr]
      exact h.1 r rfl

/-- C7 (counterexample): two indexed documents with the same timestamp:
a blank-query search returns both, in an order that is sorted descending
but NOT strictly descending (equal date values are adjacent), so "sorted
strictly by timestamp descending" fails whenever timestamps tie. -/
theorem claim_c7_counterexample :
    (IndexerState.search dv0 (emptyIndexer.buildIndex [convA, convB]) [] "" 10 none).length
      = 2 ∧
    sortedDescB (fun r => dv0 r.timestamp)
      (IndexerState.search dv0 (emptyIndexer.buildIndex [convA, convB]) [] "" 10 none)
      = true ∧
    strictDescB (fun r => dv0 r.timestamp)
      (IndexerState.search dv0 (emptyIndexer.buildIndex [convA, convB]) [] "" 10 none)
      = false := by
  decide

/-- C7 (amended): for every limit `n` and optional project filter, `search`
with a blank (empty or whitespace-only) query returns at most `n` results,
each drawn from the indexed documents — satisfying the project-name
substring filter when a truthy filter is given — and sorted by date value
descending (non-strictly: adjacent results may carry equal timestamps). -/
theorem claim_c7_amended (dateVal : String → Int) (st : IndexerState)
    (oracle : List (List String)) (query : String) (limit : Nat) (pf : Option String)
    (hblank : (trimJs query.data).isEmpty = true) :
    (IndexerState.search dateVal st oracle query limit pf).length ≤ limit ∧
    (∀ r ∈ IndexerState.search dateVal st oracle query limit pf,
      ∃ d ∈ st.documents.map Prod.snd, r.id = d.id ∧ r.timestamp = d.timestamp ∧
        (optTruthy pf = true → strIncludes d.projectName (pf.getD "") = true)) ∧
    sortedDescB (fun r => dateVal r.timestamp)
      (IndexerState.search dateVal st oracle query limit pf) = true := by
  rw [IndexerState.search, if_pos hblank]
  refine ⟨?_, ?_, ?_⟩
  · simp only [IndexerState.getRecent]
    rw [List.length_map]
    exact List.length_take_le _ _
  · intro r hr
    exact getRecent_src hr
  · simp only [IndexerState.getRecent]
    refine sortedDescB_map _ _ ?_
    exact sortedDescB_take _ _ (sortedDescB_sortFold _ [] rfl)

theorem data_mk (l : List Char) : (String.mk l).data = l := rfl

theorem strExt {s t : String} (h : s.data = t.data) : s = t := by
  cases s
  cases t
  cases h
  rfl

theorem idxOfSeq_replicate {p a : Char} {pat : List Char} (hne : (p == a) = false)
    (rest : List Char) :
    ∀ n : Nat, idxOfSeq (p :: pat) (List.replicate n a ++ rest) =
      (idxOfSeq (p :: pat) rest).map (· + n) := by
  intro n
  induction n with
  | zero =>
    rw [show List.replicate 0 a = [] from rfl, List.nil_append]
    cases idxOfSeq (p :: pat) rest <;> simp
  | succ n ih =>
    rw [List.replicate_succ, List.cons_append, idxOfSeq]
    have hpre : (p :: pat).isPrefixOf (a :: (List.replicate n a ++ rest)) = false := by
      simp [List.isPrefixOf, hne]
    simp only [hpre, Bool.false_eq_true, if_false, ih]
    cases idxOfSeq (p :: pat) rest <;> simp [Nat.add_assoc]

theorem bigDoc_len : bigDoc.data.length = 10000 := by
  show (List.replicate 5000 'a' ++ 'x' :: List.replicate 4999 'a').length = 10000
  rw [List.length_append, List.length_replicate, List.length_cons, List.length_replicate]

theorem bigDoc_idx :
    idxOfSeq ("x".data.map Char.toLower) (bigDoc.data.map Char.toLower) = some 5000 := by
  show idxOfSeq ['x']
    ((List.replicate 5000 'a' ++ 'x' :: List.replicate 4999 'a').map Char.toLower) = some 5000
  rw [List.map_append, List.map_replicate, List.map_cons, List.map_replicate,
    show Char.toLower 'a' = 'a' from rfl, show Char.toLower 'x' = 'x' from rfl,
    idxOfSeq_replicate (by decide) _ 5000,
    show idxOfSeq ['x'] ('x' :: List.replicate 4999 'a') = some 0 from rfl]
  rfl

theorem generatePreview_some {content query : String} {i : Nat}
    (h : idxOfSeq (query.data.map Char.toLower) (content.data.map Char.toLower) = some i) :
    generatePreview content query =
      ⟨if min content.data.length (i + query.data.length + 120) < content.data.length then
          (if 0 < i - 80 then
            "...".data ++ ((content.data.take
              (min content.data.length (i + query.data.length + 120))).drop (i - 80))
          else ((content.data.take
              (min content.data.length (i + query.data.length + 120))).drop (i - 80))) ++
            "...".data
        else
          if 0 < i - 80 then
            "...".data ++ ((content.data.take
              (min content.data.length (i + query.data.length + 120))).drop (i - 80))
          else ((content.data.take
              (min content.data.length (i + query.data.length + 120))).drop (i - 80))⟩ := by
  simp only [generatePreview, h]

theorem bigDoc_preview_shape :
    (generatePreview bigDoc "x").data =
      ("...".data ++ ((bigDoc.data.take 5121).drop 4920)) ++ "...".data := by
  rw [generatePreview_some bigDoc_idx, data_mk, bigDoc_len,
    show ("x" : String).data.length = 1 from rfl,
    if_pos (by norm_num : min 10000 (5000 + 1 + 120) < 10000),
    if_pos (by norm_num : 0 < 5000 - 80)]
  rfl

/-- C6: `generatePreview` computes exactly the spec's preview: around the
first case-insensitive occurrence `i` of the query, the slice of the
original text from `max(0, i-80)` to `min(length, i+len(query)+120)`, an
ellipsis prefixed iff the window does not start at 0 and suffixed iff it
does not reach the end; with no occurrence, the first 200 characters plus
an ellipsis iff longer than 200.  In particular a query matching at
character 5000 of a 10000-character document yields a preview with
ellipsis markers on both ends. -/
theorem claim_c6_preview (content query : String) :
    generatePreview content query = previewSpec content query ∧
    "...".data <+: (generatePreview bigDoc "x").data ∧
    "...".data <:+ (generatePreview bigDoc "x").data ∧
    bigDoc.data.length = 10000 ∧
    idxOfSeq ("x".data.map Char.toLower) (bigDoc.data.map Char.toLower) = some 5000 := by
  refine ⟨?_, ?_, ?_, bigDoc_len, bigDoc_idx⟩
  case refine_2 =>
    rw [bigDoc_preview_shape, List.append_assoc]
    exact List.prefix_append _ _
  case refine_3 =>
    rw [bigDoc_preview_shape]
    exact List.suffix_append _ _
  cases hidx : idxOfSeq (query.data.map Char.toLower) (content.data.map Char.toLower) with
  | none =>
    simp only [generatePreview, previewSpec, hidx, truncateText]
  | some i =>
    simp only [generatePreview, previewSpec, hidx]
    have hlo : (max 0 ((i : Int) - 80)).toNat = i - 80 := by omega
    rw [hlo, List.drop_take]
    have hminle : min content.data.length (i + query.data.length + 120) ≤
        content.data.length := Nat.min_le_left _ _
    by_cases h1 : 0 < i - 80
    · rw [if_pos h1, if_pos (by omega : i - 80 ≠ 0)]
      by_cases h2 : min content.data.length (i + query.data.length + 120) <
          content.data.length
      · rw [if_pos h2, if_pos (by omega : min content.data.length
          (i + query.data.length + 120) ≠ content.data.length)]
        apply strExt
        simp [data_mk, String.data_append]
      · rw [if_neg h2, if_neg (by omega : ¬ min content.data.length
          (i + query.data.length + 120) ≠ content.data.length)]
        apply strExt
        simp [data_mk, String.data_append]
    · rw [if_neg h1, if_neg (by omega : ¬ i - 80 ≠ 0)]
      by_cases h2 : min content.data.length (i + query.data.length + 120) <
          content.data.length
      · rw [if_pos h2, if_pos (by omega : min content.data.length
          (i + query.data.length + 120) ≠ content.data.length)]
        apply strExt
        simp [data_mk, String.data_append]
      · rw [if_neg h2, if_neg (by omega : ¬ min content.data.length
          (i + query.data.length + 120) ≠ content.data.length)]
        apply strExt
        simp [data_mk, String.data_append]

theorem claim_c7_amended_witness :
    (IndexerState.search dv0 (emptyIndexer.buildIndex [convA, convB]) [] " " 1 none).length
      ≤ 1 ∧
    (∀ r ∈ IndexerState.search dv0 (emptyIndexer.buildIndex [convA, convB]) [] " " 1 none,
      ∃ d ∈ (emptyIndexer.buildIndex [convA, convB]).documents.map Prod.snd,
        r.id = d.id ∧ r.timestamp = d.timestamp ∧
        (optTruthy none = true → strIncludes d.projectName (Option.getD none "") = true)) ∧
    sortedDescB (fun r => dv0 r.timestamp)
      (IndexerState.search dv0 (emptyIndexer.buildIndex [convA, convB]) [] " " 1 none)
      = true :=
  claim_c7_amended dv0 (emptyIndexer.buildIndex [convA, convB]) [] " " 1 none (by decide)

end ClaudeSearch
